import Mathlib

/-!
Verification development for the jsonpart library (a fastjson fork).

The Go code works on byte strings; we model a Go `string`/`[]byte` as a
`List Nat` of byte values.  Pure Go functions become Lean functions;
fallible functions return `Except`/`Option`; the recursive-descent parser
is expressed with an explicit fuel parameter (first argument) so that all
definitions are structurally recursive and kernel-computable.  Mutating
methods (`Object.Get` key unescaping, `Value.vType`) are modelled as
state-passing functions returning the updated value alongside the result.
-/

set_option maxRecDepth 16000

namespace Jsonpart

/-! ## Basic byte-string helpers (jsonpart.go bottom section) -/

/-- Whitespace bytes recognized by `skipWS`/`skipWSSlow`:
space (0x20), LF (0x0A), TAB (0x09), CR (0x0D). -/
def isWS (c : Nat) : Bool :=
  c == 0x20 || c == 0x0A || c == 0x09 || c == 0x0D

/-- Models `skipWS` (the fast path `s[0] > 0x20` and `skipWSSlow` combine
to: drop the maximal leading run of the four whitespace bytes). -/
def skipWS : List Nat → List Nat
  | [] => []
  | c :: t => if isWS c then skipWS t else c :: t

/-- Models `startEndString`: previews of at most `maxStartEndStringLen = 80`
bytes are kept whole; longer text shows the first 40 and last 40 bytes
joined by `"..."`. -/
def startEndString (s : List Nat) : List Nat :=
  if s.length ≤ 80 then s
  else s.take 40 ++ [46, 46, 46] ++ s.drop (s.length - 40)

/-- Models `strings.IndexByte` together with the slicing around the found
byte: `splitAtByte b s = some (pre, post)` when `s = pre ++ b :: post` and
`b` does not occur in `pre`; `none` when `b` does not occur in `s`. -/
def splitAtByte (b : Nat) : List Nat → Option (List Nat × List Nat)
  | [] => none
  | c :: t =>
    if c = b then some ([], t)
    else
      match splitAtByte b t with
      | none => none
      | some (p, q) => some (c :: p, q)

/-- Count of consecutive backslash bytes (0x5C = 92) at the start of a list. -/
def leadingBackslashes : List Nat → Nat
  | [] => 0
  | c :: t => if c = 92 then leadingBackslashes t + 1 else 0

/-- Count of consecutive backslash bytes at the end of a list.  This is the
quantity the slow path of `parseRawString` computes with its
`for i > 0 && s[i-1] == '\\'` loop. -/
def trailingBackslashes (s : List Nat) : Nat :=
  leadingBackslashes s.reverse

/-- Models `strings.Index` (first occurrence of a pattern). -/
def indexOfSub (pat : List Nat) : List Nat → Option Nat
  | [] => if pat = [] then some 0 else none
  | c :: t =>
    if pat.isPrefixOf (c :: t) then some 0
    else (indexOfSub pat t).map (· + 1)

/-! ## Parse errors

The Go code builds error values with `fmt.Errorf`, wrapping inner errors
into outer messages.  We model the resulting error structure as an
inductive type, one constructor per distinct message, carrying the same
data the message interpolates. -/

inductive PErr where
  /-- "cannot parse empty string" -/
  | emptyString
  /-- "too big depth for the nested JSON; it exceeds 300" -/
  | tooBigDepth
  /-- "unexpected value found: %q" -/
  | unexpectedValue (s : List Nat)
  /-- "cannot parse object: %s" -/
  | cannotParseObject (e : PErr)
  /-- "cannot parse array: %s" -/
  | cannotParseArray (e : PErr)
  /-- "cannot parse string: %s" -/
  | cannotParseString (e : PErr)
  /-- "cannot parse number: %s" -/
  | cannotParseNumber (e : PErr)
  /-- "missing closing quote" -/
  | missingClosingQuote
  /-- "unexpected char: %q" -/
  | unexpectedChar (s : List Nat)
  /-- "missing right bracket closing an array" -/
  | missingArrayEnd
  /-- "cannot parse array value: %s" -/
  | cannotParseArrayValue (e : PErr)
  /-- "unexpected end of array" -/
  | unexpectedEndOfArray
  /-- "missing comma after array value" -/
  | missingCommaArray
  /-- "missing right brace closing an object" -/
  | missingObjectEnd
  /-- "cannot find opening quote for object key" -/
  | missingOpeningQuote
  /-- "cannot parse object key: %s" -/
  | cannotParseObjectKey (e : PErr)
  /-- "missing colon after object key" -/
  | missingColon
  /-- "cannot parse object value: %s" -/
  | cannotParseObjectValue (e : PErr)
  /-- "unexpected end of object" -/
  | unexpectedEndOfObject
  /-- "missing comma after object value" -/
  | missingCommaObject
  deriving DecidableEq

/-! ## String scanner (`parseRawString`, `parseRawKey`) -/

/-- Fueled loop of `parseRawString`.  The Go code repeatedly takes
`n := strings.IndexByte(s, '"')` and counts the consecutive backslashes in
the current window immediately before position `n`; since each new window
starts just after the previously rejected quote, that window-local count
equals `trailingBackslashes pre` for the segment `pre` before the candidate
quote.  `acc` accumulates the part of the original string already scanned
past (Go keeps the original in `ss` and returns `ss[:len(ss)-len(s)+n]`).
Fuel `s.length + 1` always suffices (each iteration consumes at least one
byte). -/
def parseRawStringLoop : Nat → List Nat → List Nat → Option (Except PErr (List Nat × List Nat))
  | 0, _, _ => none
  | f + 1, acc, s =>
    match splitAtByte 34 s with
    | none => some (.error .missingClosingQuote)
    | some (pre, post) =>
      if trailingBackslashes pre % 2 = 0 then some (.ok (acc ++ pre, post))
      else parseRawStringLoop f (acc ++ pre ++ [34]) post

/-- Models `parseRawString` (input: the text just after the opening quote).
The fast path (`n == 0 || s[n-1] != '\\'`) coincides with the even-count
case of the loop, since the trailing-backslash count is then zero. -/
def parseRawString (s : List Nat) : Except PErr (List Nat × List Nat) :=
  (parseRawStringLoop (s.length + 1) [] s).getD (.error .missingClosingQuote)

/-- Scanning loop of `parseRawKey`: look for the first quote or backslash;
a quote closes the key (fast path), a backslash delegates to
`parseRawString` on the original input `orig`. -/
def parseRawKeyLoop (orig : List Nat) : List Nat → List Nat → Except PErr (List Nat × List Nat)
  | _, [] => .error .missingClosingQuote
  | acc, c :: t =>
    if c = 34 then .ok (acc, t)
    else if c = 92 then parseRawString orig
    else parseRawKeyLoop orig (acc ++ [c]) t

/-- Models `parseRawKey`. -/
def parseRawKey (s : List Nat) : Except PErr (List Nat × List Nat) :=
  parseRawKeyLoop s [] s

/-! ## Raw number scanner (`parseRawNumber`) -/

/-- The byte class consumed by `parseRawNumber`:
digits, `.`, `-`, `e`, `E`, `+`. -/
def isNumChar (c : Nat) : Bool :=
  (48 ≤ c && c ≤ 57) || c == 46 || c == 45 || c == 101 || c == 69 || c == 43

/-- ASCII lower-casing of a byte. -/
def asciiLower (c : Nat) : Nat :=
  if 65 ≤ c ∧ c ≤ 90 then c + 32 else c

/-- Models `strings.EqualFold` for the comparisons in this library.  All
targets compared against (`"inf"`, `"nan"`, `"infinity"`, `"true"` …) are
ASCII words without `s`/`k`, so Go's Unicode simple folding agrees with
bytewise ASCII case-insensitive comparison on them: a non-ASCII byte can
never fold-match an ASCII letter of these words, and equal byte lists are
always fold-equal. -/
def eqFold (a b : List Nat) : Bool :=
  a.map asciiLower == b.map asciiLower

def infLit : List Nat := [105, 110, 102]

def nanLit : List Nat := [110, 97, 110]

/-- Models `parseRawNumber`.  The Go loop scans the maximal prefix of
number-class bytes (`takeWhile isNumChar`); when the loop stops at index
`i = 0`, or `i = 1` after a leading sign, it accepts a case-insensitive
`inf`/`nan` token of 3 further bytes, else reports the offending first
byte; when the loop runs off the end the whole rest is the number. -/
def parseRawNumber (s : List Nat) : Except PErr (List Nat × List Nat) :=
  let pre := s.takeWhile isNumChar
  let post := s.dropWhile isNumChar
  match post with
  | [] => .ok (s, [])
  | _ :: _ =>
    if pre.length = 0 ∨ (pre.length = 1 ∧ (s.take 1 = [45] ∨ s.take 1 = [43])) then
      if 3 ≤ post.length ∧ (eqFold (post.take 3) infLit ∨ eqFold (post.take 3) nanLit) then
        .ok (s.take (pre.length + 3), s.drop (pre.length + 3))
      else .error (.unexpectedChar (s.take 1))
    else .ok (pre, post)

/-! ## Unescaping (`unescapeStringBestEffort`) -/

/-- Value of one hex digit byte, as accepted by `strconv.ParseUint(_, 16, _)`. -/
def hexDigit (c : Nat) : Option Nat :=
  if 48 ≤ c ∧ c ≤ 57 then some (c - 48)
  else if 97 ≤ c ∧ c ≤ 102 then some (c - 87)
  else if 65 ≤ c ∧ c ≤ 70 then some (c - 55)
  else none

/-- Models `strconv.ParseUint(xs, 16, 16)` on a 4-byte slice: succeeds
exactly when all four bytes are hex digits (a 4-digit hex value always fits
16 bits; base 16 is passed explicitly so no `0x` prefix or underscores are
accepted). -/
def hex4 : List Nat → Option Nat
  | [a, b, c, d] =>
    match hexDigit a, hexDigit b, hexDigit c, hexDigit d with
    | some x, some y, some z, some w => some (((x * 16 + y) * 16 + z) * 16 + w)
    | _, _, _, _ => none
  | _ => none

/-- Models `utf16.IsSurrogate`. -/
def isSurrogate (r : Nat) : Bool :=
  0xD800 ≤ r && r ≤ 0xDFFF

/-- Models `utf16.DecodeRune`: a valid high/low surrogate pair combines per
the UTF-16 rules, anything else yields the replacement character U+FFFD. -/
def decodeRune (r1 r2 : Nat) : Nat :=
  if 0xD800 ≤ r1 ∧ r1 < 0xDC00 ∧ 0xDC00 ≤ r2 ∧ r2 < 0xE000 then
    (r1 - 0xD800) * 0x400 + (r2 - 0xDC00) + 0x10000
  else 0xFFFD

/-- UTF-8 encoding of a code point, as produced by Go's `string(rune)` on
the values this library feeds it (non-surrogate scalars up to 0x10FFFF). -/
def utf8Encode (r : Nat) : List Nat :=
  if r < 0x80 then [r]
  else if r < 0x800 then [0xC0 + r / 64, 0x80 + r % 64]
  else if r < 0x10000 then [0xE0 + r / 4096, 0x80 + r / 64 % 64, 0x80 + r % 64]
  else [0xF0 + r / 262144, 0x80 + r / 4096 % 64, 0x80 + r / 64 % 64, 0x80 + r % 64]

/-- Requests for the fueled unescaping loop: `esc s` processes the text `s`
found right after a backslash (the `switch ch` body); `scan s` performs the
post-switch `strings.IndexByte(s, '\\')` search for the next escape. -/
inductive UReq where
  | esc (s : List Nat)
  | scan (s : List Nat)

/-- Fueled body of the slow path of `unescapeStringBestEffort`.  Each case
mirrors the Go `switch` arm of the same escape byte; the `scan` case models
the post-switch search for the next backslash.  Note the Go loop
`for len(s) > 0` exits when a backslash is the last byte, dropping it. -/
def unescapeRun : Nat → UReq → Option (List Nat)
  | 0, _ => none
  | f + 1, .scan s =>
    match splitAtByte 92 s with
    | none => some s
    | some (pre, post) => (unescapeRun f (.esc post)).map (pre ++ ·)
  | f + 1, .esc s =>
    match s with
    | [] => some []
    | ch :: s1 =>
      if ch = 34 then (unescapeRun f (.scan s1)).map (34 :: ·)
      else if ch = 92 then (unescapeRun f (.scan s1)).map (92 :: ·)
      else if ch = 47 then (unescapeRun f (.scan s1)).map (47 :: ·)
      else if ch = 98 then (unescapeRun f (.scan s1)).map (8 :: ·)
      else if ch = 102 then (unescapeRun f (.scan s1)).map (12 :: ·)
      else if ch = 110 then (unescapeRun f (.scan s1)).map (10 :: ·)
      else if ch = 114 then (unescapeRun f (.scan s1)).map (13 :: ·)
      else if ch = 116 then (unescapeRun f (.scan s1)).map (9 :: ·)
      else if ch = 117 then
        if s1.length < 4 then (unescapeRun f (.scan s1)).map ([92, 117] ++ ·)
        else
          match hex4 (s1.take 4) with
          | none => (unescapeRun f (.scan s1)).map ([92, 117] ++ ·)
          | some x =>
            let s2 := s1.drop 4
            if ¬ isSurrogate x then
              (unescapeRun f (.scan s2)).map (utf8Encode x ++ ·)
            else if s2.length < 6 ∨ s2.take 2 ≠ [92, 117] then
              (unescapeRun f (.scan s2)).map ((92 :: 117 :: s1.take 4) ++ ·)
            else
              match hex4 ((s2.drop 2).take 4) with
              | none => (unescapeRun f (.scan s2)).map ((92 :: 117 :: s1.take 4) ++ ·)
              | some x1 =>
                (unescapeRun f (.scan (s2.drop 6))).map (utf8Encode (decodeRune x x1) ++ ·)
      else (unescapeRun f (.scan s1)).map ([92, ch] ++ ·)

/-- Models `unescapeStringBestEffort`.  Fast path: no backslash, return the
input unchanged.  Slow path: keep the prefix before the first backslash and
run the escape-processing loop on the rest (fuel `s.length + 1` always
suffices since every step consumes at least one byte). -/
def unescapeStringBestEffort (s : List Nat) : List Nat :=
  match splitAtByte 92 s with
  | none => s
  | some (pre, post) => pre ++ (unescapeRun (s.length + 1) (.esc post)).getD []

/-! ## Escaping (`escapeString`, `hasSpecialChars`) -/

/-- Models `hasSpecialChars`: a quote, backslash, or control byte. -/
def hasSpecialChars (s : List Nat) : Bool :=
  s.contains 34 || s.contains 92 || s.any (· < 0x20)

/-- Lowercase hex digit byte for a value below 16. -/
def hexChar (n : Nat) : Nat :=
  if n < 10 then 48 + n else 87 + n

/-- Per-byte quoting used to model `strconv.AppendQuote`: quote and
backslash are backslash-escaped, the Go single-letter control escapes are
used for 0x07..0x0D and 0x0B, other control bytes and DEL become `\xHH`,
printable ASCII is copied verbatim.  Bytes at 0x80 and above are copied
verbatim (Go additionally escapes non-printable or invalid UTF-8 there;
no theorem below depends on that range — `escapeString` is only reached
with fast-path or ASCII content in this development). -/
def appendQuoteByte (c : Nat) : List Nat :=
  if c = 34 then [92, 34]
  else if c = 92 then [92, 92]
  else if c = 7 then [92, 97]
  else if c = 8 then [92, 98]
  else if c = 12 then [92, 102]
  else if c = 10 then [92, 110]
  else if c = 13 then [92, 114]
  else if c = 9 then [92, 116]
  else if c = 11 then [92, 118]
  else if c < 0x20 ∨ c = 0x7F then [92, 120, hexChar (c / 16), hexChar (c % 16)]
  else [c]

/-- Models `strconv.AppendQuote` (see `appendQuoteByte` for fidelity notes). -/
def strconvAppendQuote (s : List Nat) : List Nat :=
  34 :: (s.map appendQuoteByte).flatten ++ [34]

/-- Models `escapeString`: verbatim quote-wrapping when no special
characters are present, otherwise `strconv.AppendQuote`. -/
def escapeString (s : List Nat) : List Nat :=
  if hasSpecialChars s then strconvAppendQuote s
  else 34 :: s ++ [34]

/-! ## The Value tree

`Value` models the Go `Value` struct: a tagged union over the `vType`
kinds.  The object payload (the Go `Object` struct: the `kvs` slice and the
`keysUnescaped` flag) is inlined into the `vObject` constructor.  `VList`
and `KVList` are the spines of `[]*Value` and `[]kv` (mutual inductives,
so that structural recursion and induction are available). -/

mutual
inductive Value where
  | vNull
  | vTrue
  | vFalse
  | vNumber (s : List Nat)
  | vRawString (s : List Nat)
  | vString (s : List Nat)
  | vArray (a : VList)
  | vObject (kvs : KVList) (keysUnescaped : Bool)
  deriving DecidableEq
inductive VList where
  | nil
  | cons (v : Value) (t : VList)
  deriving DecidableEq
inductive KVList where
  | nil
  | cons (k : List Nat) (v : Value) (t : KVList)
  deriving DecidableEq
end

/-- Append a value at the end of a `VList` (Go `a.a = append(a.a, v)`). -/
def VList.snoc : VList → Value → VList
  | .nil, v => .cons v .nil
  | .cons v0 t, v => .cons v0 (t.snoc v)

/-- Append a key/value pair at the end of a `KVList` (Go `o.getKV` plus
assignment of `kv.k`, `kv.v`). -/
def KVList.snoc : KVList → List Nat → Value → KVList
  | .nil, k, v => .cons k v .nil
  | .cons k0 v0 t, k, v => .cons k0 v0 (t.snoc k v)

def VList.length : VList → Nat
  | .nil => 0
  | .cons _ t => t.length + 1

def KVList.length : KVList → Nat
  | .nil => 0
  | .cons _ _ t => t.length + 1

/-! ## Serialization (`Value.MarshalTo`, `Object.MarshalTo`) -/

/-- Key emission in `Object.MarshalTo`: unescaped keys are re-escaped via
`escapeString`, still-raw keys are emitted verbatim between quotes. -/
def marshalKey (ku : Bool) (k : List Nat) : List Nat :=
  if ku then escapeString k
  else 34 :: k ++ [34]

mutual
/-- Models `Value.MarshalTo` (appending to `dst` becomes list append). -/
def marshalValue : Value → List Nat
  | .vRawString s => 34 :: s ++ [34]
  | .vObject kvs ku => 123 :: marshalKVs ku kvs
  | .vArray a => 91 :: marshalVList a
  | .vString s => escapeString s
  | .vNumber s => s
  | .vTrue => [116, 114, 117, 101]
  | .vFalse => [102, 97, 108, 115, 101]
  | .vNull => [110, 117, 108, 108]
/-- Array elements of `Value.MarshalTo`: comma between elements (Go emits a
comma except after the last element), then the closing bracket. -/
def marshalVList : VList → List Nat
  | .nil => [93]
  | .cons v .nil => marshalValue v ++ [93]
  | .cons v t => marshalValue v ++ 44 :: marshalVList t
/-- Object body of `Object.MarshalTo`: key, colon, value, comma between
pairs, then the closing brace. -/
def marshalKVs (ku : Bool) : KVList → List Nat
  | .nil => [125]
  | .cons k v .nil => marshalKey ku k ++ 58 :: marshalValue v ++ [125]
  | .cons k v t => marshalKey ku k ++ 58 :: marshalValue v ++ 44 :: marshalKVs ku t
end

/-! ## Recursive-descent parser (`parseValue`, `parseObject`, `parseArray`)

The Go functions are mutually recursive, with loops for object members and
array elements.  We model the family as a single fueled function over a
request type: `val`/`obj`/`arr` correspond to `parseValue`, `parseObject`,
`parseArray`; `objLoop`/`arrLoop` are their `for` loops, with the Go
in-place `append` into the node under construction modelled by the `acc`
accumulator.  Every recursive call and every loop iteration decreases the
fuel by one, so the recursion is structural; `none` means out of fuel
(which never happens for the fuel chosen by the entry point, as proved
below). -/

/-- Models the constant `maxDepth`. -/
def maxDepth : Nat := 300

inductive PReq where
  | val (s : List Nat) (depth : Nat)
  | obj (s : List Nat) (depth : Nat)
  | objLoop (acc : KVList) (s : List Nat) (depth : Nat)
  | arr (s : List Nat) (depth : Nat)
  | arrLoop (acc : VList) (s : List Nat) (depth : Nat)

/-- Result type of the parse family: `none` is fuel exhaustion; errors
carry the unparsed tail the Go functions return alongside. -/
abbrev PResult := Option (Except (PErr × List Nat) (Value × List Nat))

def trueLit : List Nat := [116, 114, 117, 101]

def falseLit : List Nat := [102, 97, 108, 115, 101]

def nullLit : List Nat := [110, 117, 108, 108]

/-- The fueled parse family; see the section comment.  Each branch mirrors
the corresponding Go branch in source order, including the tail value
returned with each error. -/
def parseRun : Nat → PReq → PResult
  | 0, _ => none
  | f + 1, .val s depth =>
    match s with
    | [] => some (.error (.emptyString, s))
    | c :: s1 =>
      if depth + 1 > maxDepth then some (.error (.tooBigDepth, s))
      else if c = 123 then
        match parseRun f (.obj s1 (depth + 1)) with
        | none => none
        | some (.error (e, tail)) => some (.error (.cannotParseObject e, tail))
        | some (.ok vt) => some (.ok vt)
      else if c = 91 then
        match parseRun f (.arr s1 (depth + 1)) with
        | none => none
        | some (.error (e, tail)) => some (.error (.cannotParseArray e, tail))
        | some (.ok vt) => some (.ok vt)
      else if c = 34 then
        match parseRawString s1 with
        | .error e => some (.error (.cannotParseString e, []))
        | .ok (ss, tail) => some (.ok (.vRawString ss, tail))
      else if c = 116 then
        if s.take 4 = trueLit then some (.ok (.vTrue, s.drop 4))
        else some (.error (.unexpectedValue s, s))
      else if c = 102 then
        if s.take 5 = falseLit then some (.ok (.vFalse, s.drop 5))
        else some (.error (.unexpectedValue s, s))
      else if c = 110 then
        if s.take 4 = nullLit then some (.ok (.vNull, s.drop 4))
        else if 3 ≤ s.length ∧ eqFold (s.take 3) nanLit then
          some (.ok (.vNumber (s.take 3), s.drop 3))
        else some (.error (.unexpectedValue s, s))
      else
        match parseRawNumber s with
        | .error e => some (.error (.cannotParseNumber e, s))
        | .ok (ns, tail) => some (.ok (.vNumber ns, tail))
  | f + 1, .obj s depth =>
    match skipWS s with
    | [] => some (.error (.missingObjectEnd, []))
    | c :: s2 =>
      if c = 125 then some (.ok (.vObject .nil false, s2))
      else parseRun f (.objLoop .nil (c :: s2) depth)
  | f + 1, .objLoop acc s depth =>
    match skipWS s with
    | [] => some (.error (.missingOpeningQuote, []))
    | c :: s2 =>
      if c ≠ 34 then some (.error (.missingOpeningQuote, c :: s2))
      else
        match parseRawKey s2 with
        | .error e => some (.error (.cannotParseObjectKey e, []))
        | .ok (k, s3) =>
          match skipWS s3 with
          | [] => some (.error (.missingColon, []))
          | c2 :: s5 =>
            if c2 ≠ 58 then some (.error (.missingColon, c2 :: s5))
            else
              match parseRun f (.val (skipWS s5) depth) with
              | none => none
              | some (.error (e, tail)) => some (.error (.cannotParseObjectValue e, tail))
              | some (.ok (v, s7)) =>
                match skipWS s7 with
                | [] => some (.error (.unexpectedEndOfObject, []))
                | c3 :: s9 =>
                  if c3 = 44 then parseRun f (.objLoop (acc.snoc k v) s9 depth)
                  else if c3 = 125 then some (.ok (.vObject (acc.snoc k v) false, s9))
                  else some (.error (.missingCommaObject, c3 :: s9))
  | f + 1, .arr s depth =>
    match skipWS s with
    | [] => some (.error (.missingArrayEnd, []))
    | c :: s2 =>
      if c = 93 then some (.ok (.vArray .nil, s2))
      else parseRun f (.arrLoop .nil (c :: s2) depth)
  | f + 1, .arrLoop acc s depth =>
    match parseRun f (.val (skipWS s) depth) with
    | none => none
    | some (.error (e, tail)) => some (.error (.cannotParseArrayValue e, tail))
    | some (.ok (v, s2)) =>
      match skipWS s2 with
      | [] => some (.error (.unexpectedEndOfArray, []))
      | c :: s4 =>
        if c = 44 then parseRun f (.arrLoop (acc.snoc v) s4 depth)
        else if c = 93 then some (.ok (.vArray (acc.snoc v), s4))
        else some (.error (.missingCommaArray, c :: s4))

/-- Fuel used by the entry point; `3 * length + 4` dominates the recursion
depth of the family (proved sufficient below). -/
def parseFuel (s : List Nat) : Nat := 3 * s.length + 4

inductive TopErr where
  /-- "cannot parse JSON: %s; unparsed tail: %q" -/
  | cannotParseJSON (e : PErr) (preview : List Nat)
  deriving DecidableEq

/-- Models `parser.parse` (and therefore `Parse` with no partial key):
skip leading whitespace, run `parseValue` at depth 0, wrap errors with a
bounded preview of the unparsed tail, ignore the tail on success.  The
`none` branch is unreachable for this fuel (see `parseRun_fuel_enough`). -/
def parserParse (s : List Nat) : Except TopErr Value :=
  match parseRun (parseFuel (skipWS s)) (.val (skipWS s) 0) with
  | none => .error (.cannotParseJSON .emptyString [])
  | some (.error (e, tail)) => .error (.cannotParseJSON e (startEndString tail))
  | some (.ok (v, _)) => .ok v

/-! ## The partial-extraction entry point (`Parse` with a partial key) -/

inductive ParseErr where
  /-- "cannot find partialKey: %s; JSON: %q" -/
  | cannotFindPartialKey (key preview : List Nat)
  /-- "invalid partialKey: %s; JSON: %q" -/
  | invalidPartialKey (key preview : List Nat)
  /-- wrapped error of `parser.parse` -/
  | jsonError (e : TopErr)
  deriving DecidableEq

/-- Models `Parse(s, partialKey)` for a non-empty `partialKey` (with an
empty key the function is just `parserParse`).  The outer `Option` records
abnormal termination: `none` means the Go code panics — it evaluates
`v[0]` after `skipWS` without checking that `v` is non-empty. -/
def ParsePartial (s partialKey : List Nat) : Option (Except ParseErr Value) :=
  match indexOfSub (34 :: partialKey ++ [34]) s with
  | none => some (.error (.cannotFindPartialKey partialKey (startEndString s)))
  | some i =>
    let s2 := s.drop i
    let v := skipWS (s2.drop (partialKey.length + 2))
    match v with
    | [] => none
    | c :: rest =>
      if c ≠ 58 then some (.error (.invalidPartialKey partialKey (startEndString s2)))
      else some ((parserParse rest).mapError .jsonError)

/-! ## Integer parsing (`parseInt64`, `parseUint64` and best-effort variants) -/

/-- Decimal digit byte. -/
def isDigit (c : Nat) : Bool :=
  48 ≤ c && c ≤ 57

/-- Left-to-right decimal accumulation of a digit run on top of `acc`
(the shape of the Go `d = d*10 + int64(s[i]-'0')` loops). -/
def digitsValAux (acc : Nat) : List Nat → Nat
  | [] => acc
  | c :: t => digitsValAux (acc * 10 + (c - 48)) t

/-- Numeric value of a run of decimal digit bytes. -/
def digitsVal (s : List Nat) : Nat :=
  digitsValAux 0 s

/-- Models `strconv.ParseUint(s, 10, 64)`: no sign accepted, at least one
digit, digits only, value within 64 bits (Go reports `ErrRange` beyond,
which every caller in this library treats as failure). -/
def goParseUint64 (s : List Nat) : Option Nat :=
  if s = [] ∨ ¬ s.all isDigit then none
  else if digitsVal s < 2 ^ 64 then some (digitsVal s)
  else none

/-- Models `strconv.ParseInt(s, 10, 64)` (also `strconv.Atoi` on 64-bit
platforms): optional `+`/`-` sign, at least one digit, digits only,
signed 64-bit range (`ErrRange` beyond is failure for all callers here). -/
def goParseInt64 (s : List Nat) : Option Int :=
  match s with
  | [] => none
  | c :: t =>
    let neg := c = 45
    let ds := if c = 45 ∨ c = 43 then t else s
    if ds = [] ∨ ¬ ds.all isDigit then none
    else if neg then
      if digitsVal ds ≤ 2 ^ 63 then some (-(digitsVal ds : Int)) else none
    else
      if digitsVal ds < 2 ^ 63 then some (digitsVal ds : Int) else none

/-- Models `parseInt64`.  The Go digit loop counts positions with `i`
starting after the optional minus sign at index 0, and falls back to
`strconv.ParseInt` when `i` exceeds 18 while still consuming digits —
i.e. exactly when the sign length plus the leading digit-run length
reaches 19.  The fast-path accumulator is exact for the digits it keeps
(at most 18, below 2^63). -/
def parseInt64 (s : List Nat) : Option Int :=
  match s with
  | [] => none
  | c0 :: _ =>
    let minus := c0 = 45
    let body := if minus then s.drop 1 else s
    if body = [] then none
    else
      let ds := body.takeWhile isDigit
      let rest := body.dropWhile isDigit
      if (if minus then 1 else 0) + ds.length ≥ 19 then goParseInt64 s
      else if ds.length = 0 then none
      else if rest ≠ [] then none
      else if minus then some (-(digitsVal ds : Int)) else some (digitsVal ds : Int)

/-- Models `parseInt64BestEffort` (same structure as `parseInt64`, with 0
in place of every error). -/
def parseInt64BestEffort (s : List Nat) : Int :=
  match s with
  | [] => 0
  | c0 :: _ =>
    let minus := c0 = 45
    let body := if minus then s.drop 1 else s
    if body = [] then 0
    else
      let ds := body.takeWhile isDigit
      let rest := body.dropWhile isDigit
      if (if minus then 1 else 0) + ds.length ≥ 19 then (goParseInt64 s).getD 0
      else if ds.length = 0 then 0
      else if rest ≠ [] then 0
      else if minus then -(digitsVal ds : Int) else (digitsVal ds : Int)

/-- Models `parseUint64` (no sign handling; position counter starts at 0,
so the fallback fires exactly at a leading digit run of 19). -/
def parseUint64 (s : List Nat) : Option Nat :=
  match s with
  | [] => none
  | _ :: _ =>
    let ds := s.takeWhile isDigit
    let rest := s.dropWhile isDigit
    if ds.length ≥ 19 then goParseUint64 s
    else if ds.length = 0 then none
    else if rest ≠ [] then none
    else some (digitsVal ds)

/-- Models `parseUint64BestEffort`. -/
def parseUint64BestEffort (s : List Nat) : Nat :=
  match s with
  | [] => 0
  | _ :: _ =>
    let ds := s.takeWhile isDigit
    let rest := s.dropWhile isDigit
    if ds.length ≥ 19 then (goParseUint64 s).getD 0
    else if ds.length = 0 then 0
    else if rest ≠ [] then 0
    else digitsVal ds

/-! ## Float parsing control flow (`parseBestEffort`, `parse`)

Claim C5 concerns which inputs make the float parsers abandon the fast
accumulator and call `strconv.ParseFloat`.  Floating-point values are out
of scope of the shallow embedding; we embed the control flow of the two
functions exactly (every loop with its per-iteration fallback test, every
early return), eliding only the float arithmetic on the accumulator.  The
functions below return `true` exactly on the control paths where the Go
code calls `strconv.ParseFloat`. -/

/-- The integer-part digit loop of `parseBestEffort`/`parse`: consumes
digits advancing the position `i`; `none` models the `i > 18` fallback
test firing after an increment. -/
def intLoop : List Nat → Nat → Option (Nat × List Nat)
  | [], i => some (i, [])
  | c :: t, i =>
    if isDigit c then
      if i + 1 > 18 then none else intLoop t (i + 1)
    else some (i, c :: t)

/-- The fractional digit loop: `none` models the
`i-j >= uint(len(float64pow10))` fallback test firing (the table has 17
entries; `j` is the position right after the sign). -/
def fracLoop (j : Nat) : List Nat → Nat → Option (Nat × List Nat)
  | [], i => some (i, [])
  | c :: t, i =>
    if isDigit c then
      if i + 1 - j ≥ 17 then none else fracLoop j t (i + 1)
    else some (i, c :: t)

/-- The exponent digit loop: accumulates the exponent and fires (`none`)
when it exceeds 300.  The Go accumulator is an `int16`, but the loop fires
before 301·10 + 9 can be exceeded, so plain naturals are exact. -/
def expLoop : List Nat → Nat → Option (Nat × List Nat)
  | [], e => some (e, [])
  | c :: t, e =>
    if isDigit c then
      if e * 10 + (c - 48) > 300 then none else expLoop t (e * 10 + (c - 48))
    else some (e, c :: t)

/-- Exponent section shared verbatim by `parseBestEffort` and `parse`:
after the mantissa, an `e`/`E`, an optional sign, then the digit loop.
Returns whether `strconv.ParseFloat` is reached. -/
def expPartFallsBack (rest : List Nat) : Bool :=
  if rest.take 1 ≠ [101] ∧ rest.take 1 ≠ [69] then false
  else
    let r1 := rest.drop 1
    if r1 = [] then false
    else
      let r2 := if r1.take 1 = [43] ∨ r1.take 1 = [45] then r1.drop 1 else r1
      if r2 = [] then false
      else
        match expLoop r2 0 with
        | none => true
        | some _ => false

/-- Control flow of `parseBestEffort`: `true` exactly when the function
calls `strconv.ParseFloat` (then returning that routine's result, with
errors other than infinities mapped to 0). -/
def parseBestEffortFallsBack (s : List Nat) : Bool :=
  if s = [] then false
  else
    let minus := s.take 1 = [45]
    let i1 := if minus then 1 else 0
    if s.length ≤ i1 then false
    else if (s.drop i1).take 1 = [46] ∧ ¬ ((s.drop (i1 + 1)).take 1).any isDigit then false
    else
      match intLoop (s.drop i1) i1 with
      | none => true
      | some (i2, rest2) =>
        if i2 ≤ i1 ∧ rest2.take 1 ≠ [46] then false
        else if rest2 = [] then false
        else if rest2.take 1 = [46] then
          let rest3 := rest2.drop 1
          if rest3 = [] then false
          else
            match fracLoop i1 rest3 (i2 + 1) with
            | none => true
            | some (_, rest4) =>
              if rest4 = [] then false else expPartFallsBack rest4
        else expPartFallsBack rest2

/-- Control flow of the strict `parse`: identical to `parseBestEffort`
(the two functions differ only in the values/errors returned on each
path, not in when they reach `strconv.ParseFloat`). -/
def parseFloatFallsBack (s : List Nat) : Bool :=
  if s = [] then false
  else
    let minus := s.take 1 = [45]
    let i1 := if minus then 1 else 0
    if s.length ≤ i1 then false
    else if (s.drop i1).take 1 = [46] ∧ ¬ ((s.drop (i1 + 1)).take 1).any isDigit then false
    else
      match intLoop (s.drop i1) i1 with
      | none => true
      | some (i2, rest2) =>
        if i2 ≤ i1 ∧ rest2.take 1 ≠ [46] then false
        else if rest2 = [] then false
        else if rest2.take 1 = [46] then
          let rest3 := rest2.drop 1
          if rest3 = [] then false
          else
            match fracLoop i1 rest3 (i2 + 1) with
            | none => true
            | some (_, rest4) =>
              if rest4 = [] then false else expPartFallsBack rest4
        else expPartFallsBack rest2

/-! ## Value-tree accessors (`Object.Get`, `Value.Get`, typed getters)

The Go methods mutate the tree through pointers (`unescapeKeys` rewrites
keys in place; `vType` rewrites the resolved node).  We model them as
state-passing functions: each returns its result together with the updated
tree. -/

/-- Models the Go `vType` constants. -/
inductive VType where
  | tNull
  | tObject
  | tArray
  | tString
  | tNumber
  | tTrue
  | tFalse
  | tRawString
  deriving DecidableEq

/-- The kind tag `v.t` of a node. -/
def kindOf : Value → VType
  | .vNull => .tNull
  | .vTrue => .tTrue
  | .vFalse => .tFalse
  | .vNumber _ => .tNumber
  | .vRawString _ => .tRawString
  | .vString _ => .tString
  | .vArray _ => .tArray
  | .vObject _ _ => .tObject

/-- Models the method `Value.vType`: on a raw string it unescapes the
payload in place and rewrites the kind to String, then returns the kind. -/
def vTypeOp : Value → VType × Value
  | .vRawString s => (.tString, .vString (unescapeStringBestEffort s))
  | v => (kindOf v, v)

/-- Key rewriting of `Object.unescapeKeys` (`kv.k = unescapeStringBestEffort(kv.k)`
for every pair; values untouched). -/
def unescapeKeysKVs : KVList → KVList
  | .nil => .nil
  | .cons k v t => .cons (unescapeStringBestEffort k) v (unescapeKeysKVs t)

/-- Models `Object.unescapeKeys` including its `keysUnescaped` guard. -/
def objectUnescapeKeys (kvs : KVList) (ku : Bool) : KVList × Bool :=
  if ku then (kvs, ku) else (unescapeKeysKVs kvs, true)

/-- Index of the first pair whose key equals the query key (the `for _, kv`
search loops inside `Object.Get`). -/
def findKeyIdx : KVList → List Nat → Option Nat
  | .nil, _ => none
  | .cons k _ t, key => if k = key then some 0 else (findKeyIdx t key).map (· + 1)

def KVList.getIdx : KVList → Nat → Option (List Nat × Value)
  | .nil, _ => none
  | .cons k v _, 0 => some (k, v)
  | .cons _ _ t, n + 1 => t.getIdx n

def KVList.setIdx : KVList → Nat → Value → KVList
  | .nil, _, _ => .nil
  | .cons k _ t, 0, w => .cons k w t
  | .cons k v t, n + 1, w => .cons k v (t.setIdx n w)

def VList.getIdx : VList → Nat → Option Value
  | .nil, _ => none
  | .cons v _, 0 => some v
  | .cons _ t, n + 1 => t.getIdx n

def VList.setIdx : VList → Nat → Value → VList
  | .nil, _, _ => .nil
  | .cons _ t, 0, w => .cons w t
  | .cons v t, n + 1, w => .cons v (t.setIdx n w)

/-- Models `Object.Get`, instrumented to return the index of the found
pair (the Go method returns a pointer into `o.kvs`; the index lets callers
model mutation through that pointer).  Fast path: with keys still raw and
a backslash-free query, search the raw keys and return on a hit; in every
other flow, unescape all keys (setting the flag) and search again. -/
def objectGetIdx (kvs : KVList) (ku : Bool) (key : List Nat) : Option Nat × (KVList × Bool) :=
  if ¬ ku ∧ ¬ key.contains 92 then
    match findKeyIdx kvs key with
    | some i => (some i, (kvs, ku))
    | none =>
      let st := objectUnescapeKeys kvs ku
      (findKeyIdx st.1 key, st)
  else
    let st := objectUnescapeKeys kvs ku
    (findKeyIdx st.1 key, st)

/-- Models `Object.Get` (the value it returns, with the updated state). -/
def objectGet (kvs : KVList) (ku : Bool) (key : List Nat) : Option Value × (KVList × Bool) :=
  let r := objectGetIdx kvs ku key
  ((r.1.bind fun i => (r.2.1.getIdx i).map (·.2)), r.2)

/-- Models `strconv.Atoi` on a 64-bit platform (`int` = 64 bits), which is
`strconv.ParseInt(s, 10, 64)`. -/
def goAtoi (s : List Nat) : Option Int :=
  goParseInt64 s

/-- Models a walk of `Value.Get` over a key path, followed by an operation
`tf` applied to the resolved node (`tf` is what a typed getter then does
through the returned pointer).  At an object, `Object.Get` may unescape
keys in place; at an array, the segment is parsed with `strconv.Atoi` and
bounds-checked; any other kind resolves to nothing.  The updated tree is
returned alongside. -/
def getWith (tf : Value → Option α × Value) : Value → List (List Nat) → Option α × Value
  | v, [] => tf v
  | .vObject kvs ku, key :: rest =>
    match objectGetIdx kvs ku key with
    | (none, st) => (none, .vObject st.1 st.2)
    | (some i, st) =>
      match st.1.getIdx i with
      | none => (none, .vObject st.1 st.2)
      | some kv =>
        ((getWith tf kv.2 rest).1, .vObject (st.1.setIdx i (getWith tf kv.2 rest).2) st.2)
  | .vArray a, key :: rest =>
    match goAtoi key with
    | none => (none, .vArray a)
    | some n =>
      if n < 0 ∨ (a.length : Int) ≤ n then (none, .vArray a)
      else
        match a.getIdx n.toNat with
        | none => (none, .vArray a)
        | some child =>
          ((getWith tf child rest).1, .vArray (a.setIdx n.toNat (getWith tf child rest).2))
  | v, _ :: _ => (none, v)

/-- Models `Value.Get` (path resolution without a typed read; the walk can
still unescape object keys along the way). -/
def valueGetOp (v : Value) (path : List (List Nat)) : Option Value × Value :=
  getWith (fun w => (some w, w)) v path

/-- The state effect shared by the typed getters (`GetString`,
`GetFloat64`, `StringBytes`, `Float64`, …): resolve the path, then call
`vType()` on the resolved node. -/
def typedReadStep (v : Value) : Option VType × Value :=
  (some (vTypeOp v).1, (vTypeOp v).2)

def typedReadOp (v : Value) (path : List (List Nat)) : Option VType × Value :=
  getWith typedReadStep v path

/-! ## Specification-side definitions

These definitions formalize the wording of the specification/claims,
independently of the code-structured definitions above; the claim theorems
relate the two. -/

/-- Value of the first pair, in original parse order, whose key equals the
query key (specification wording of object lookup). -/
def firstMatch : KVList → List Nat → Option Value
  | .nil, _ => none
  | .cons k v t, key => if k = key then some v else firstMatch t key

/-- Position `p` in `s` carries a closing quote for the raw-string scan:
the byte is a quote and it is preceded by an even number (possibly zero)
of consecutive backslashes (specification wording, §4.2 slow path). -/
def isClosingQuote (s : List Nat) (p : Nat) : Bool :=
  s[p]? == some 34 && trailingBackslashes (s.take p) % 2 == 0

/-- No closing quote occurs before position `n`. -/
def noClosingBefore (s : List Nat) (n : Nat) : Prop :=
  ∀ p, p < n → isClosingQuote s p = false

/-- Sign length as counted by the float parsers (they test only for a
leading minus; a plus is not consumed as a sign). -/
def floatSignLen (s : List Nat) : Nat :=
  if s.take 1 = [45] then 1 else 0

/-- Number of integer-part digits of a numeric text. -/
def intDigitCount (s : List Nat) : Nat :=
  ((s.drop (floatSignLen s)).takeWhile isDigit).length

/-- Text after the sign and the integer-part digits. -/
def afterIntPart (s : List Nat) : List Nat :=
  (s.drop (floatSignLen s)).dropWhile isDigit

/-- Whether a decimal point follows the integer part. -/
def hasFracPart (s : List Nat) : Bool :=
  (afterIntPart s).take 1 = [46]

/-- Number of fractional digits (0 without a decimal point). -/
def fracDigitCount (s : List Nat) : Nat :=
  if hasFracPart s then (((afterIntPart s).drop 1).takeWhile isDigit).length else 0

/-- Text after the mantissa (sign, integer digits, optional point and
fractional digits). -/
def afterFracPart (s : List Nat) : List Nat :=
  if hasFracPart s then ((afterIntPart s).drop 1).dropWhile isDigit
  else afterIntPart s

/-- The exponent digit run: after an `e`/`E` and an optional sign. -/
def expDigitRun (s : List Nat) : List Nat :=
  if (afterFracPart s).take 1 = [101] ∨ (afterFracPart s).take 1 = [69] then
    let r1 := (afterFracPart s).drop 1
    let r2 := if r1.take 1 = [43] ∨ r1.take 1 = [45] then r1.drop 1 else r1
    r2.takeWhile isDigit
  else []

/-- Magnitude of the exponent (value of its digit run). -/
def expMagnitude (s : List Nat) : Nat :=
  digitsVal (expDigitRun s)

/-- Exponent-section condition of the amended claim C5: an `e`/`E` is
present and the value of its digit run exceeds 300 (an empty run has
value 0 and never triggers). -/
def amendedExp (rest : List Nat) : Bool :=
  if rest.take 1 ≠ [101] ∧ rest.take 1 ≠ [69] then false
  else
    let r1 := rest.drop 1
    let r2 := if r1.take 1 = [43] ∨ r1.take 1 = [45] then r1.drop 1 else r1
    decide (300 < digitsVal (r2.takeWhile isDigit))

/-- Amended claim C5, as a predicate on the numeric text measured by the
scanners above: the float parsers reach `strconv.ParseFloat` exactly when
— in scan order and having passed the early-return checks — (a) the
sign-inclusive position counter reaches 19 inside the integer digits
(i.e. 19 digits unsigned, 18 digits with a minus), or (b) a fractional
part with at least one digit satisfies intDigits + 1 + fracDigits ≥ 17
(the power-of-ten table has 17 entries and the counter includes the
decimal point but not the sign), or (c) the exponent digit run has value
exceeding 300. -/
def amendedFallsBack (s : List Nat) : Bool :=
  let m := floatSignLen s
  let dI := intDigitCount s
  if s = [] then false
  else if s.length ≤ m then false
  else if (s.drop m).take 1 = [46] ∧ ¬ ((s.drop (m + 1)).take 1).any isDigit then false
  else if m + dI ≥ 19 then true
  else if dI = 0 ∧ ¬ hasFracPart s then false
  else if s.length ≤ m + dI then false
  else if hasFracPart s then
    if s.length ≤ m + dI + 1 then false
    else if 1 ≤ fracDigitCount s ∧ dI + 1 + fracDigitCount s ≥ 17 then true
    else if s.length ≤ m + dI + 1 + fracDigitCount s then false
    else amendedExp (s.drop (m + dI + 1 + fracDigitCount s))
  else amendedExp (s.drop (m + dI))

/-- Amended claim C6 as an executable reference function: one pass over
the text, translating each table escape to its literal byte, `\uXXXX` to
the UTF-8 bytes of its code point, an adjacent valid surrogate pair to the
combined code point; a surrogate escape followed by another syntactically
valid `\uXXXX` that does not complete a valid pair becomes U+FFFD
(consuming both escapes); a backslash that is the last byte of the input
is dropped; every other malformed or incomplete escape is passed through
unchanged as literal text.  Defined by well-founded recursion on the
remaining length (it is related to the code by theorem, not evaluated). -/
def unescapeAmended (s : List Nat) : List Nat :=
  match s with
  | [] => []
  | c :: rest =>
    if c = 92 then
      match rest with
      | [] => []
      | e :: r1 =>
        if e = 34 then 34 :: unescapeAmended r1
        else if e = 92 then 92 :: unescapeAmended r1
        else if e = 47 then 47 :: unescapeAmended r1
        else if e = 98 then 8 :: unescapeAmended r1
        else if e = 102 then 12 :: unescapeAmended r1
        else if e = 110 then 10 :: unescapeAmended r1
        else if e = 114 then 13 :: unescapeAmended r1
        else if e = 116 then 9 :: unescapeAmended r1
        else if e = 117 then
          if r1.length < 4 then 92 :: 117 :: unescapeAmended r1
          else
            match hex4 (r1.take 4) with
            | none => 92 :: 117 :: unescapeAmended r1
            | some x =>
              if ¬ isSurrogate x then utf8Encode x ++ unescapeAmended (r1.drop 4)
              else if (r1.drop 4).length < 6 ∨ (r1.drop 4).take 2 ≠ [92, 117] then
                (92 :: 117 :: r1.take 4) ++ unescapeAmended (r1.drop 4)
              else
                match hex4 (((r1.drop 4).drop 2).take 4) with
                | none => (92 :: 117 :: r1.take 4) ++ unescapeAmended (r1.drop 4)
                | some x1 =>
                  utf8Encode (decodeRune x x1) ++ unescapeAmended ((r1.drop 4).drop 6)
        else 92 :: e :: unescapeAmended r1
    else c :: unescapeAmended rest
termination_by s.length
decreasing_by
  all_goals first
    | (simp [List.length_drop]; omega)
    | simp [List.length_drop]
    | omega

/-! Structural relation of claim C9: `KindsEvolve v w` holds when the two
trees have the same shape and every node keeps its kind, except that a raw
string may have become the string holding its unescaped payload.  Object
keys and the `keysUnescaped` flag are unconstrained (they carry no kind). -/
mutual
inductive KindsEvolve : Value → Value → Prop where
  | vnull : KindsEvolve .vNull .vNull
  | vtrue : KindsEvolve .vTrue .vTrue
  | vfalse : KindsEvolve .vFalse .vFalse
  | num (s : List Nat) : KindsEvolve (.vNumber s) (.vNumber s)
  | str (s : List Nat) : KindsEvolve (.vString s) (.vString s)
  | rawKeep (s : List Nat) : KindsEvolve (.vRawString s) (.vRawString s)
  | rawToStr (s : List Nat) :
      KindsEvolve (.vRawString s) (.vString (unescapeStringBestEffort s))
  | arr (a b : VList) : KindsEvolveL a b → KindsEvolve (.vArray a) (.vArray b)
  | obj (kvs kvs2 : KVList) (ku ku2 : Bool) :
      KindsEvolveKV kvs kvs2 → KindsEvolve (.vObject kvs ku) (.vObject kvs2 ku2)
inductive KindsEvolveL : VList → VList → Prop where
  | nil : KindsEvolveL .nil .nil
  | cons (v w : Value) (t u : VList) :
      KindsEvolve v w → KindsEvolveL t u → KindsEvolveL (.cons v t) (.cons w u)
inductive KindsEvolveKV : KVList → KVList → Prop where
  | nil : KindsEvolveKV .nil .nil
  | cons (k k2 : List Nat) (v w : Value) (t u : KVList) :
      KindsEvolve v w → KindsEvolveKV t u → KindsEvolveKV (.cons k v t) (.cons k2 w u)
end

/-! ### Concrete inputs and text measures used by the claim theorems -/

/-- Input text with `k` nested arrays around the number `0`. -/
def nestedInput (k : Nat) : List Nat :=
  List.replicate k 91 ++ [48] ++ List.replicate k 93

/-- The tree parsed from `nestedInput k`. -/
def nestedArrValue : Nat → Value
  | 0 => .vNumber [48]
  | k + 1 => .vArray (.cons (nestedArrValue k) .nil)

/-- The error produced by exceeding the depth limit inside `k` nested
arrays: the innermost "too big depth" error, wrapped alternately by
"cannot parse array value" (the array loop) and "cannot parse array"
(the enclosing `parseValue`) on the way out. -/
def depthErrWrap : Nat → PErr
  | 0 => .tooBigDepth
  | k + 1 => .cannotParseArray (.cannotParseArrayValue (depthErrWrap k))

/-- The input `{"a":1,"a":2,"b":3}`. -/
def dupInput : List Nat :=
  [123, 34, 97, 34, 58, 49, 44, 34, 97, 34, 58, 50, 44, 34, 98, 34, 58, 51, 125]

/-- The tree parsed from `dupInput`: all three pairs retained in source
order, including the duplicate key `a`. -/
def dupKvs : KVList :=
  .cons [97] (.vNumber [49])
    (.cons [97] (.vNumber [50])
      (.cons [98] (.vNumber [51]) .nil))

/-- The input `{"\/":0}` (one key holding the escape sequence `\/`). -/
def slashInput : List Nat :=
  [123, 34, 92, 47, 34, 58, 48, 125]

/-- The tree parsed from `slashInput`: the raw (still escaped) key. -/
def slashKvs : KVList :=
  .cons [92, 47] (.vNumber [48]) .nil

/-- The digit part of a signed decimal text: everything after an optional
leading minus (the only sign the fast paths consume). -/
def int64Digits (s : List Nat) : List Nat :=
  if s.take 1 = [45] then s.drop 1 else s

def int64Neg (s : List Nat) : Bool :=
  s.take 1 = [45]

/-- Well-formed signed decimal text: an optional minus followed by at
least one digit and nothing else. -/
def int64WellFormed (s : List Nat) : Bool :=
  decide (int64Digits s ≠ []) && (int64Digits s).all isDigit

/-- Signed value of a well-formed decimal text. -/
def int64Value (s : List Nat) : Int :=
  if int64Neg s then -(digitsVal (int64Digits s) : Int) else (digitsVal (int64Digits s) : Int)

/-- Signed 64-bit range check (`-2^63 ≤ value ≤ 2^63 - 1`). -/
def int64InRange (s : List Nat) : Bool :=
  if int64Neg s then decide (digitsVal (int64Digits s) ≤ 2 ^ 63)
  else decide (digitsVal (int64Digits s) < 2 ^ 63)

/-- Well-formed unsigned decimal text: at least one digit, nothing else. -/
def uint64WellFormed (s : List Nat) : Bool :=
  decide (s ≠ []) && s.all isDigit

/-! ### Round-trip invariants (claim C2)

A value returned by a successful parse satisfies structural invariants
that make its serialization re-parse to the same value: raw strings and
keys re-scan to themselves (they contain no premature closing quote),
numbers are either maximal number-character runs or `inf`/`nan` tokens,
objects are built with still-escaped keys, and `vString` never occurs.
The predicates below state those invariants; the extraction and re-parse
theorems connect them to `parseRun` on both sides. -/

/-- Continuations a serialized subvalue is followed by: nothing (top
level), or a comma / closing bracket / closing brace. -/
def InnerTail (r : List Nat) : Prop :=
  r = [] ∨ (∃ t, r = 44 :: t) ∨ (∃ t, r = 93 :: t) ∨ (∃ t, r = 125 :: t)

/-- Number payloads produced by the parser in positions followed by more
text: either a non-empty run of number-class bytes other than a lone
sign, or an optionally signed case-insensitive `inf`/`nan` token. -/
def NumOK (ns : List Nat) : Prop :=
  (ns ≠ [] ∧ ns.all isNumChar = true ∧ ns ≠ [45] ∧ ns ≠ [43]) ∨
  (∃ sg tok, (sg = [] ∨ sg = [45] ∨ sg = [43]) ∧ ns = sg ++ tok ∧
    tok.length = 3 ∧ (eqFold tok infLit = true ∨ eqFold tok nanLit = true))

/-- Raw-string payloads produced by the scanner: re-scanning against any
continuation closes at the appended quote. -/
def StrOK (ss : List Nat) : Prop :=
  ∀ r, parseRawString (ss ++ 34 :: r) = .ok (ss, r)

/-- Key payloads produced by the key scanner. -/
def KeyOK (k : List Nat) : Prop :=
  ∀ r, parseRawKey (k ++ 34 :: r) = .ok (k, r)

mutual
inductive GoodVal : Value → Prop where
  | null : GoodVal .vNull
  | isTrue : GoodVal .vTrue
  | isFalse : GoodVal .vFalse
  | num (ns : List Nat) (h : NumOK ns) : GoodVal (.vNumber ns)
  | raw (ss : List Nat) (h : StrOK ss) : GoodVal (.vRawString ss)
  | arr (a : VList) (h : GoodVL a) : GoodVal (.vArray a)
  | obj (kvs : KVList) (h : GoodKVs kvs) : GoodVal (.vObject kvs false)
inductive GoodVL : VList → Prop where
  | nil : GoodVL .nil
  | cons (v : Value) (t : VList) (hv : GoodVal v) (ht : GoodVL t) :
      GoodVL (.cons v t)
inductive GoodKVs : KVList → Prop where
  | nil : GoodKVs .nil
  | cons (k : List Nat) (v : Value) (t : KVList) (hk : KeyOK k)
      (hv : GoodVal v) (ht : GoodKVs t) : GoodKVs (.cons k v t)
end

/-- What a successful `parseValue` guarantees about its value and tail:
the invariant, except that a value whose tail is empty may instead be a
bare number-character run (including a lone sign) — such a value can
only survive at top level, where the tail is ignored. -/
def GoodValT (v : Value) (t : List Nat) : Prop :=
  GoodVal v ∨ (t = [] ∧ ∃ ns, v = .vNumber ns ∧ ns ≠ [] ∧ ns.all isNumChar = true)

mutual
/-- Nesting depth as counted by the parser's depth guard: the number of
`parseValue` frames on the deepest path. -/
def depthOf : Value → Nat
  | .vArray a => depthOfVL a + 1
  | .vObject kvs _ => depthOfKVs kvs + 1
  | _ => 1
def depthOfVL : VList → Nat
  | .nil => 0
  | .cons v t => max (depthOf v) (depthOfVL t)
def depthOfKVs : KVList → Nat
  | .nil => 0
  | .cons _ v t => max (depthOf v) (depthOfKVs t)
end

/-- Drain a `VList` into an accumulator by repeated `snoc` (the shape of
the array loop's builds). -/
def VList.appendAll : VList → VList → VList
  | acc, .nil => acc
  | acc, .cons v t => VList.appendAll (acc.snoc v) t

/-- Drain a `KVList` into an accumulator by repeated `snoc`. -/
def KVList.appendAll : KVList → KVList → KVList
  | acc, .nil => acc
  | acc, .cons k v t => KVList.appendAll (acc.snoc k v) t

/-- The input `{"a":[1,true]}` used by the round-trip witness. -/
def c2Input : List Nat :=
  [123, 34, 97, 34, 58, 91, 49, 44, 116, 114, 117, 101, 93, 125]

/-- The tree parsed from `c2Input`. -/
def c2Value : Value :=
  .vObject (.cons [97]
    (.vArray (.cons (.vNumber [49]) (.cons .vTrue .nil))) .nil) false

/-! ## Claim C1 (partial-key extraction error handling) -/

/-- Claim C1 states that whenever the quoted key literal is absent, or is
present but not followed (after whitespace) by a colon, `Parse` signals a
descriptive error and returns no value.  The code violates this: when the
quoted key is found at the very end of the input, `skipWS` leaves the
empty string and the test `v[0] != ':'` indexes out of range — a runtime
panic, not an error return.  This theorem evaluates the model at that
failing input: `s = "\"k\""`, `partialKey = "k"` (the `none` result is the
model's representation of the panic). -/
theorem c1_parse_panics_on_key_at_end :
    ParsePartial [34, 107, 34] [107] = none := by rfl

/-! ## Claim C3 (depth limit) -/

/-- Claim C3: each nested value increments the single depth counter shared
across the parse, with maximum `maxDepth = 300`; the number nested inside
299 arrays sits at depth 300 and the whole input parses successfully,
while one more nesting level aborts the entire parse with the "too big
depth" error (wrapped by the enclosing contexts) and no partial tree. -/
theorem c3_depth_limit :
    parserParse (nestedInput 299) = .ok (nestedArrValue 299) ∧
    parserParse (nestedInput 300) =
      .error (.cannotParseJSON (depthErrWrap 300)
        (startEndString ([48] ++ List.replicate 300 93))) ∧
    maxDepth = 300 :=
  ⟨by rfl, by rfl, rfl⟩

/-! ## Claim C4 (duplicate keys, first-match lookup) -/

/-- Searching by index and then reading that index is the first-match
lookup. -/
theorem findKeyIdx_getIdx :
    ∀ (kvs : KVList) (key : List Nat),
      ((findKeyIdx kvs key).bind fun i => (kvs.getIdx i).map (·.2)) =
        firstMatch kvs key
  | .nil, _ => rfl
  | .cons k v t, key => by
    by_cases hk : k = key
    · simp [findKeyIdx, firstMatch, hk, KVList.getIdx]
    · have ih := findKeyIdx_getIdx t key
      simp only [findKeyIdx, firstMatch, hk, if_neg, not_false_iff]
      rw [← ih]
      cases findKeyIdx t key with
      | none => rfl
      | some i => simp [KVList.getIdx]

/-- Claim C4: (i) `Object.Get` returns the value of the first pair, in
original order, whose key matches the query key (stated against the
object's keys as they stand after the lookup's own lazy unescaping —
`firstMatch` on the returned state); (ii) parsing retains duplicate keys
without overwriting or deduplication (`dupInput` yields all three pairs in
source order); (iii) both `Object.Get` and the path accessor return the
value of the first `"a"` pair. -/
theorem c4_first_match :
    (∀ kvs ku key,
        (objectGet kvs ku key).1 = firstMatch (objectGet kvs ku key).2.1 key) ∧
    parserParse dupInput = .ok (.vObject dupKvs false) ∧
    (objectGet dupKvs false [97]).1 = some (.vNumber [49]) ∧
    (valueGetOp (.vObject dupKvs false) [[97]]).1 = some (.vNumber [49]) ∧
    dupKvs.length = 3 := by
  refine ⟨?_, by rfl, by rfl, by rfl, by rfl⟩
  intro kvs ku key
  unfold objectGet objectGetIdx
  split
  · split
    next i hidx =>
      have h := findKeyIdx_getIdx kvs key
      rw [hidx] at h
      simpa using h
    next hidx =>
      exact findKeyIdx_getIdx _ key
  · exact findKeyIdx_getIdx _ key

/-! ## Claim C10 (`Object.Get` is not read-only) -/

/-- Claim C10: (i) whenever the fast path of `Object.Get` does not return
a hit on the still-escaped raw keys — every lookup whose query key
contains a backslash, and every lookup whose key is absent from the raw
keys — the method unescapes all stored keys in place and sets the
`keysUnescaped` flag; (ii) serialization output can then change: for the
parsed object `{"\/":0}`, `MarshalTo` first reproduces the input verbatim,
but after a failed `Get` of the absent key `"x"` the keys are unescaped
and `MarshalTo` re-escapes them, producing `{"/":0}` instead. -/
theorem c10_get_side_effect :
    (∀ (kvs : KVList) (key : List Nat),
        key.contains 92 = true ∨ findKeyIdx kvs key = none →
        (objectGet kvs false key).2 = (unescapeKeysKVs kvs, true)) ∧
    parserParse slashInput = .ok (.vObject slashKvs false) ∧
    marshalValue (.vObject slashKvs false) = slashInput ∧
    (objectGet slashKvs false [120]).2 = (.cons [47] (.vNumber [48]) .nil, true) ∧
    marshalValue (.vObject (.cons [47] (.vNumber [48]) .nil) true) =
      [123, 34, 47, 34, 58, 48, 125] ∧
    ([123, 34, 47, 34, 58, 48, 125] : List Nat) ≠ slashInput := by
  refine ⟨?_, by rfl, by rfl, by rfl, by rfl, by decide⟩
  intro kvs key h
  unfold objectGet objectGetIdx
  rcases h with h | h
  · split
    · next hcond =>
        exact absurd h (by simpa using hcond.2)
    · simp [objectUnescapeKeys]
  · split
    · rw [h]
      simp [objectUnescapeKeys]
    · simp [objectUnescapeKeys]

/-- Witness for the hypothesis of `c10_get_side_effect`: the general part
applied at the concrete object of `slashInput` with the absent key `"x"`. -/
theorem c10_get_side_effect_witness :
    (([120] : List Nat).contains 92 = true ∨ findKeyIdx slashKvs [120] = none) ∧
    (objectGet slashKvs false [120]).2 = (unescapeKeysKVs slashKvs, true) :=
  ⟨Or.inr (by decide), c10_get_side_effect.1 slashKvs [120] (Or.inr (by decide))⟩

/-! ## Claim C9 (kind stability) -/

mutual
theorem kindsEvolve_refl : ∀ v : Value, KindsEvolve v v
  | .vNull => .vnull
  | .vTrue => .vtrue
  | .vFalse => .vfalse
  | .vNumber s => .num s
  | .vString s => .str s
  | .vRawString s => .rawKeep s
  | .vArray a => .arr a a (kindsEvolveL_refl a)
  | .vObject kvs ku => .obj kvs kvs ku ku (kindsEvolveKV_refl kvs)
theorem kindsEvolveL_refl : ∀ a : VList, KindsEvolveL a a
  | .nil => .nil
  | .cons v t => .cons v v t t (kindsEvolve_refl v) (kindsEvolveL_refl t)
theorem kindsEvolveKV_refl : ∀ kvs : KVList, KindsEvolveKV kvs kvs
  | .nil => .nil
  | .cons k v t => .cons k k v v t t (kindsEvolve_refl v) (kindsEvolveKV_refl t)
end

mutual
theorem kindsEvolve_trans : ∀ {u v w : Value},
    KindsEvolve u v → KindsEvolve v w → KindsEvolve u w
  | _, _, _, .vnull, h2 => h2
  | _, _, _, .vtrue, h2 => h2
  | _, _, _, .vfalse, h2 => h2
  | _, _, _, .num _, h2 => h2
  | _, _, _, .str _, h2 => h2
  | _, _, _, .rawKeep _, h2 => h2
  | _, _, _, .rawToStr s, .str _ => .rawToStr s
  | _, _, _, .arr a _ hab, .arr _ c hbc => .arr a c (kindsEvolveL_trans hab hbc)
  | _, _, _, .obj kvs _ ku _ h12, .obj _ kvs3 _ ku3 h23 =>
      .obj kvs kvs3 ku ku3 (kindsEvolveKV_trans h12 h23)
theorem kindsEvolveL_trans : ∀ {a b c : VList},
    KindsEvolveL a b → KindsEvolveL b c → KindsEvolveL a c
  | _, _, _, .nil, h2 => h2
  | _, _, _, .cons v _ t _ hv ht, .cons _ x _ u hw hu =>
      .cons v x t u (kindsEvolve_trans hv hw) (kindsEvolveL_trans ht hu)
theorem kindsEvolveKV_trans : ∀ {a b c : KVList},
    KindsEvolveKV a b → KindsEvolveKV b c → KindsEvolveKV a c
  | _, _, _, .nil, h2 => h2
  | _, _, _, .cons k _ v _ t _ hv ht, .cons _ k3 _ x _ u hw hu =>
      .cons k k3 v x t u (kindsEvolve_trans hv hw) (kindsEvolveKV_trans ht hu)
end

/-- Unescaping keys keeps every value (hence every kind). -/
theorem kindsEvolveKV_unescapeKeys : ∀ kvs : KVList, KindsEvolveKV kvs (unescapeKeysKVs kvs)
  | .nil => .nil
  | .cons k v t =>
      .cons k (unescapeStringBestEffort k) v v t (unescapeKeysKVs t)
        (kindsEvolve_refl v) (kindsEvolveKV_unescapeKeys t)

theorem kindsEvolveKV_objectUnescapeKeys (kvs : KVList) (ku : Bool) :
    KindsEvolveKV kvs (objectUnescapeKeys kvs ku).1 := by
  unfold objectUnescapeKeys
  split
  · exact kindsEvolveKV_refl kvs
  · exact kindsEvolveKV_unescapeKeys kvs

theorem kindsEvolveKV_objectGetIdx (kvs : KVList) (ku : Bool) (key : List Nat) :
    KindsEvolveKV kvs (objectGetIdx kvs ku key).2.1 := by
  unfold objectGetIdx
  split
  · split
    · exact kindsEvolveKV_refl kvs
    · exact kindsEvolveKV_objectUnescapeKeys kvs ku
  · exact kindsEvolveKV_objectUnescapeKeys kvs ku

/-- Replacing the value at one index by an evolution of the value found
there keeps the whole key list evolving. -/
theorem kindsEvolveKV_setIdx :
    ∀ (kvs : KVList) (i : Nat) (k : List Nat) (v w : Value),
      kvs.getIdx i = some (k, v) → KindsEvolve v w →
      KindsEvolveKV kvs (kvs.setIdx i w)
  | .nil, i, k, v, w, h, _ => by simp [KVList.getIdx] at h
  | .cons k0 v0 t, 0, k, v, w, h, hvw => by
      simp only [KVList.getIdx] at h
      obtain ⟨hk, hv⟩ : k0 = k ∧ v0 = v := by
        constructor <;> injection h with h1 <;> simp_all
      subst hk hv
      exact .cons k0 k0 v0 w t t hvw (kindsEvolveKV_refl t)
  | .cons k0 v0 t, i + 1, k, v, w, h, hvw => by
      simp only [KVList.getIdx] at h
      exact .cons k0 k0 v0 v0 t (t.setIdx i w) (kindsEvolve_refl v0)
        (kindsEvolveKV_setIdx t i k v w h hvw)

theorem kindsEvolveL_setIdx :
    ∀ (a : VList) (i : Nat) (v w : Value),
      a.getIdx i = some v → KindsEvolve v w →
      KindsEvolveL a (a.setIdx i w)
  | .nil, i, v, w, h, _ => by simp [VList.getIdx] at h
  | .cons v0 t, 0, v, w, h, hvw => by
      simp only [VList.getIdx, Option.some_inj] at h
      subst h
      exact .cons v0 w t t hvw (kindsEvolveL_refl t)
  | .cons v0 t, i + 1, v, w, h, hvw => by
      simp only [VList.getIdx] at h
      exact .cons v0 v0 t (t.setIdx i w) (kindsEvolve_refl v0)
        (kindsEvolveL_setIdx t i v w h hvw)

/-- Any path walk whose final operation evolves the resolved node evolves
the whole tree. -/
theorem getWith_evolves {α : Type} (tf : Value → Option α × Value)
    (htf : ∀ v, KindsEvolve v (tf v).2) :
    ∀ (path : List (List Nat)) (v : Value), KindsEvolve v (getWith tf v path).2 := by
  intro path
  induction path with
  | nil => intro v; cases v <;> exact htf _
  | cons key rest ih =>
    intro v
    match v with
    | .vNull => exact kindsEvolve_refl _
    | .vTrue => exact kindsEvolve_refl _
    | .vFalse => exact kindsEvolve_refl _
    | .vNumber s => exact kindsEvolve_refl _
    | .vRawString s => exact kindsEvolve_refl _
    | .vString s => exact kindsEvolve_refl _
    | .vObject kvs ku =>
      have hstate := kindsEvolveKV_objectGetIdx kvs ku key
      show KindsEvolve (Value.vObject kvs ku) (getWith tf (.vObject kvs ku) (key :: rest)).2
      rw [getWith]
      rcases hg : objectGetIdx kvs ku key with ⟨idx, st⟩
      rw [hg] at hstate
      dsimp only at hstate
      cases idx with
      | none => exact .obj _ _ _ _ hstate
      | some i =>
        dsimp only
        cases hget : st.1.getIdx i with
        | none => exact .obj _ _ _ _ hstate
        | some kv =>
          dsimp only
          refine .obj _ _ _ _ (kindsEvolveKV_trans hstate ?_)
          exact kindsEvolveKV_setIdx _ i kv.1 kv.2 _ (by rw [hget]) (ih kv.2)
    | .vArray a =>
      show KindsEvolve (Value.vArray a) (getWith tf (.vArray a) (key :: rest)).2
      rw [getWith]
      cases hat : goAtoi key with
      | none => exact kindsEvolve_refl _
      | some n =>
        dsimp only
        split
        · exact kindsEvolve_refl _
        · cases hget : a.getIdx n.toNat with
          | none => exact kindsEvolve_refl _
          | some child =>
            dsimp only
            exact .arr _ _ (kindsEvolveL_setIdx a n.toNat child _ hget (ih child))

/-- Claim C9: no public operation changes a node's kind except the
one-time lazy RawString→String transition on its first typed read.
Conjuncts: path resolution (`Value.Get`) and typed reads evolve the tree
within `KindsEvolve` (which only permits RawString→String); `vType` itself
evolves its node and is idempotent on the state (the transition happens
once — a second read changes nothing); a node already of String kind is
left untouched by any further typed read; `Object.Get` and the key
unescaping forced by object iteration (`Visit`) keep every contained
value's kind.  Serialization (`marshalValue`) is modelled as a pure
function of the tree and touches no state by construction. -/
theorem c9_kind_stability :
    (∀ (v : Value) (path : List (List Nat)), KindsEvolve v (valueGetOp v path).2) ∧
    (∀ (v : Value) (path : List (List Nat)), KindsEvolve v (typedReadOp v path).2) ∧
    (∀ v : Value, KindsEvolve v (vTypeOp v).2) ∧
    (∀ v : Value, (vTypeOp (vTypeOp v).2).2 = (vTypeOp v).2) ∧
    (∀ (s : List Nat) (path : List (List Nat)),
        (typedReadOp (.vString s) path).2 = .vString s) ∧
    (∀ (kvs : KVList) (ku : Bool) (key : List Nat),
        KindsEvolveKV kvs (objectGet kvs ku key).2.1) ∧
    (∀ (kvs : KVList) (ku : Bool), KindsEvolveKV kvs (objectUnescapeKeys kvs ku).1) := by
  have hvt : ∀ v : Value, KindsEvolve v (vTypeOp v).2 := by
    intro v
    cases v with
    | vRawString s => exact .rawToStr s
    | vNull => exact kindsEvolve_refl _
    | vTrue => exact kindsEvolve_refl _
    | vFalse => exact kindsEvolve_refl _
    | vNumber s => exact kindsEvolve_refl _
    | vString s => exact kindsEvolve_refl _
    | vArray a => exact kindsEvolve_refl _
    | vObject kvs ku => exact kindsEvolve_refl _
  refine ⟨?_, ?_, hvt, ?_, ?_, ?_, kindsEvolveKV_objectUnescapeKeys⟩
  · intro v path
    exact getWith_evolves _ (fun w => kindsEvolve_refl w) path v
  · intro v path
    exact getWith_evolves _ (fun w => hvt w) path v
  · intro v
    cases v <;> rfl
  · intro s path
    cases path <;> rfl
  · intro kvs ku key
    exact kindsEvolveKV_objectGetIdx kvs ku key

/-! ## Claim C8 (integer parsers) -/

theorem digitsValAux_lt :
    ∀ (l : List Nat) (acc : Nat), l.all isDigit = true →
      digitsValAux acc l < (acc + 1) * 10 ^ l.length := by
  intro l
  induction l with
  | nil =>
    intro acc _
    show acc < (acc + 1) * 10 ^ 0
    simp
  | cons c t ih =>
    intro acc hall
    simp only [List.all_cons, Bool.and_eq_true] at hall
    have hc : c - 48 ≤ 9 := by
      have := hall.1
      simp [isDigit] at this
      omega
    have step1 : digitsValAux (acc * 10 + (c - 48)) t <
        (acc * 10 + (c - 48) + 1) * 10 ^ t.length := ih (acc * 10 + (c - 48)) hall.2
    have step2 : (acc * 10 + (c - 48) + 1) * 10 ^ t.length ≤
        ((acc + 1) * 10) * 10 ^ t.length := Nat.mul_le_mul (by omega) (le_refl _)
    have step3 : ((acc + 1) * 10) * 10 ^ t.length = (acc + 1) * 10 ^ (t.length + 1) := by
      rw [pow_succ]; ring
    show digitsValAux (acc * 10 + (c - 48)) t < (acc + 1) * 10 ^ (c :: t).length
    simp only [List.length_cons]
    exact lt_of_lt_of_le step1 (step2.trans (le_of_eq step3))

theorem digitsVal_lt (l : List Nat) (h : l.all isDigit = true) :
    digitsVal l < 10 ^ l.length := by
  simpa [digitsVal] using digitsValAux_lt l 0 h

/-- `goParseInt64` on a minus-headed input, in spec terms. -/
theorem goParseInt64_minus (t : List Nat) :
    goParseInt64 (45 :: t) =
      (if (t ≠ [] ∧ t.all isDigit = true) ∧ digitsVal t ≤ 2 ^ 63
       then some (-(digitsVal t : Int)) else none) := by
  simp only [goParseInt64]
  by_cases hall : t.all isDigit = true
  · by_cases hnil : t = []
    · subst hnil; simp
    · simp [hnil, hall]
  · simp [hall]

/-- `goParseInt64` on a digit-headed input, in spec terms. -/
theorem goParseInt64_digit (c0 : Nat) (t : List Nat) (hd : isDigit c0 = true) :
    goParseInt64 (c0 :: t) =
      (if (c0 :: t).all isDigit = true ∧ digitsVal (c0 :: t) < 2 ^ 63
       then some ((digitsVal (c0 :: t) : Int)) else none) := by
  have hne : ¬ c0 = 45 := by simp [isDigit] at hd; omega
  have hnp : ¬ c0 = 43 := by simp [isDigit] at hd; omega
  simp only [goParseInt64, hne, hnp]
  by_cases h1 : (c0 :: t).all isDigit = true
  · simp [h1, hne, hnp]
  · simp [h1, hne, hnp]

/-- Unfolding of `parseInt64` on a minus-headed input. -/
theorem parseInt64_minus_eq (t : List Nat) :
    parseInt64 (45 :: t) =
      (if t = [] then none
       else if 1 + (t.takeWhile isDigit).length ≥ 19 then goParseInt64 (45 :: t)
       else if (t.takeWhile isDigit).length = 0 then none
       else if t.dropWhile isDigit ≠ [] then none
       else some (-(digitsVal (t.takeWhile isDigit) : Int))) := by
  simp [parseInt64]

/-- Unfolding of `parseInt64` on an input not headed by a minus. -/
theorem parseInt64_pos_eq (c0 : Nat) (t : List Nat) (hm : ¬ c0 = 45) :
    parseInt64 (c0 :: t) =
      (if ((c0 :: t).takeWhile isDigit).length ≥ 19 then goParseInt64 (c0 :: t)
       else if ((c0 :: t).takeWhile isDigit).length = 0 then none
       else if (c0 :: t).dropWhile isDigit ≠ [] then none
       else some ((digitsVal ((c0 :: t).takeWhile isDigit) : Int))) := by
  simp [parseInt64, hm]

theorem parseInt64BestEffort_minus_eq (t : List Nat) :
    parseInt64BestEffort (45 :: t) =
      (if t = [] then 0
       else if 1 + (t.takeWhile isDigit).length ≥ 19 then (goParseInt64 (45 :: t)).getD 0
       else if (t.takeWhile isDigit).length = 0 then 0
       else if t.dropWhile isDigit ≠ [] then 0
       else -(digitsVal (t.takeWhile isDigit) : Int)) := by
  simp [parseInt64BestEffort]

theorem parseInt64BestEffort_pos_eq (c0 : Nat) (t : List Nat) (hm : ¬ c0 = 45) :
    parseInt64BestEffort (c0 :: t) =
      (if ((c0 :: t).takeWhile isDigit).length ≥ 19 then (goParseInt64 (c0 :: t)).getD 0
       else if ((c0 :: t).takeWhile isDigit).length = 0 then 0
       else if (c0 :: t).dropWhile isDigit ≠ [] then 0
       else (digitsVal ((c0 :: t).takeWhile isDigit) : Int)) := by
  simp [parseInt64BestEffort, hm]

/-- A nonzero digit-prefix length forces a digit head. -/
theorem head_digit_of_takeWhile (c0 : Nat) (t : List Nat)
    (h : ((c0 :: t).takeWhile isDigit).length ≠ 0) : isDigit c0 = true := by
  by_cases hd : isDigit c0 = true
  · exact hd
  · rw [List.takeWhile_cons, if_neg (by simp [hd])] at h
    simp at h

/-- An empty digit prefix of a non-empty list means not all digits. -/
theorem not_all_of_takeWhile_nil (c0 : Nat) (t : List Nat)
    (h : ((c0 :: t).takeWhile isDigit).length = 0) : (c0 :: t).all isDigit = false := by
  by_cases hd : isDigit c0 = true
  · rw [List.takeWhile_cons, if_pos (by simp [hd])] at h
    simp at h
  · simp only [List.all_cons]
    simp [hd]

/-- A non-empty digit-suffix remainder means not all digits. -/
theorem not_all_of_dropWhile_ne (l : List Nat)
    (h : l.dropWhile isDigit ≠ []) : ¬ l.all isDigit = true := by
  intro hall
  exact h (List.dropWhile_eq_nil_iff.2 fun x hx => (List.all_eq_true.1 hall) x hx)

/-- All digits: the digit prefix is everything and the remainder empty. -/
theorem takeWhile_of_all (l : List Nat) (h : l.all isDigit = true) :
    l.takeWhile isDigit = l ∧ l.dropWhile isDigit = [] :=
  ⟨List.takeWhile_eq_self_iff.2 fun x hx => (List.all_eq_true.1 h) x hx,
   List.dropWhile_eq_nil_iff.2 fun x hx => (List.all_eq_true.1 h) x hx⟩

/-- The strict signed parser in specification terms: a value exactly for
an optional minus, one or more digits to the end of input, within the
signed 64-bit range; `none` otherwise. -/
theorem parseInt64_spec (s : List Nat) :
    parseInt64 s =
      (if int64WellFormed s ∧ int64InRange s then some (int64Value s) else none) := by
  cases s with
  | nil => rfl
  | cons c0 t =>
    by_cases hm : c0 = 45
    · subst hm
      rw [parseInt64_minus_eq]
      have hspec : int64Digits (45 :: t) = t := by simp [int64Digits]
      have hneg : int64Neg (45 :: t) = true := by simp [int64Neg]
      by_cases hb : t = []
      · subst hb; simp [int64WellFormed, hspec]
      · rw [if_neg hb]
        by_cases hfb : 1 + (t.takeWhile isDigit).length ≥ 19
        · rw [if_pos hfb, goParseInt64_minus]
          simp [int64WellFormed, int64InRange, int64Value, hspec, hneg, hb, and_assoc]
        · rw [if_neg hfb]
          by_cases hds : (t.takeWhile isDigit).length = 0
          · rw [if_pos hds]
            have hnall : t.all isDigit = false := by
              cases t with
              | nil => exact absurd rfl hb
              | cons x xs => exact not_all_of_takeWhile_nil x xs hds
            simp [int64WellFormed, hspec, hnall]
          · rw [if_neg hds]
            by_cases hrest : t.dropWhile isDigit ≠ []
            · rw [if_pos hrest]
              have hnall := not_all_of_dropWhile_ne t hrest
              simp [int64WellFormed, hspec, Bool.and_eq_true, hnall]
            · rw [if_neg hrest]
              push_neg at hrest
              have hall : t.all isDigit = true := by
                apply List.all_eq_true.2
                intro x hx
                exact (List.dropWhile_eq_nil_iff.1 hrest) x hx
              have htw := (takeWhile_of_all t hall).1
              have hlen17 : t.length ≤ 17 := by
                rw [htw] at hfb; omega
              have hrange : digitsVal t ≤ 2 ^ 63 := by
                have h1 := digitsVal_lt t hall
                have h2 : (10 : Nat) ^ t.length ≤ 10 ^ 17 :=
                  Nat.pow_le_pow_right (by norm_num) hlen17
                have h3 : (10 : Nat) ^ 17 ≤ 2 ^ 63 := by norm_num
                omega
              norm_num at hrange
              rw [htw]
              simp [int64WellFormed, int64InRange, int64Value, hspec, hneg, hb, hall, hrange]
    · rw [parseInt64_pos_eq c0 t hm]
      have hspec : int64Digits (c0 :: t) = c0 :: t := by simp [int64Digits, hm]
      have hneg : int64Neg (c0 :: t) = false := by simp [int64Neg, hm]
      by_cases hfb : ((c0 :: t).takeWhile isDigit).length ≥ 19
      · have hd : isDigit c0 = true :=
          head_digit_of_takeWhile c0 t (by omega)
        rw [if_pos hfb, goParseInt64_digit c0 t hd]
        simp [int64WellFormed, int64InRange, int64Value, hspec, hneg, and_assoc]
      · rw [if_neg hfb]
        by_cases hds : ((c0 :: t).takeWhile isDigit).length = 0
        · rw [if_pos hds]
          have hnall := not_all_of_takeWhile_nil c0 t hds
          simp [int64WellFormed, hspec, hnall]
        · rw [if_neg hds]
          by_cases hrest : (c0 :: t).dropWhile isDigit ≠ []
          · rw [if_pos hrest]
            have hnall := not_all_of_dropWhile_ne _ hrest
            simp [int64WellFormed, hspec, Bool.and_eq_true, hnall]
          · rw [if_neg hrest]
            push_neg at hrest
            have hall : (c0 :: t).all isDigit = true := by
              apply List.all_eq_true.2
              intro x hx
              exact (List.dropWhile_eq_nil_iff.1 hrest) x hx
            have htw := (takeWhile_of_all _ hall).1
            have hlen18 : (c0 :: t).length ≤ 18 := by
              rw [htw] at hfb
              simp only [List.length_cons] at hfb ⊢
              omega
            have hrange : digitsVal (c0 :: t) < 2 ^ 63 := by
              have h1 := digitsVal_lt _ hall
              have h2 : (10 : Nat) ^ (c0 :: t).length ≤ 10 ^ 18 :=
                Nat.pow_le_pow_right (by norm_num) hlen18
              have h3 : (10 : Nat) ^ 18 < 2 ^ 63 := by norm_num
              omega
            norm_num at hrange
            rw [htw]
            simp [int64WellFormed, int64InRange, int64Value, hspec, hneg, hall, hrange]

/-- Unfolding of `parseUint64` on a non-empty input. -/
theorem parseUint64_cons_eq (c0 : Nat) (t : List Nat) :
    parseUint64 (c0 :: t) =
      (if ((c0 :: t).takeWhile isDigit).length ≥ 19 then goParseUint64 (c0 :: t)
       else if ((c0 :: t).takeWhile isDigit).length = 0 then none
       else if (c0 :: t).dropWhile isDigit ≠ [] then none
       else some (digitsVal ((c0 :: t).takeWhile isDigit))) := by
  simp [parseUint64]

theorem parseUint64BestEffort_cons_eq (c0 : Nat) (t : List Nat) :
    parseUint64BestEffort (c0 :: t) =
      (if ((c0 :: t).takeWhile isDigit).length ≥ 19 then (goParseUint64 (c0 :: t)).getD 0
       else if ((c0 :: t).takeWhile isDigit).length = 0 then 0
       else if (c0 :: t).dropWhile isDigit ≠ [] then 0
       else digitsVal ((c0 :: t).takeWhile isDigit)) := by
  simp [parseUint64BestEffort]

/-- The strict unsigned parser in specification terms. -/
theorem parseUint64_spec (s : List Nat) :
    parseUint64 s =
      (if uint64WellFormed s ∧ digitsVal s < 2 ^ 64 then some (digitsVal s) else none) := by
  cases s with
  | nil => rfl
  | cons c0 t =>
    rw [parseUint64_cons_eq]
    by_cases hfb : ((c0 :: t).takeWhile isDigit).length ≥ 19
    · rw [if_pos hfb]
      simp only [goParseUint64, uint64WellFormed, Bool.and_eq_true, decide_eq_true_eq]
      by_cases hall : (c0 :: t).all isDigit = true
      · simp [hall, and_assoc]
      · simp [hall]
    · rw [if_neg hfb]
      by_cases hds : ((c0 :: t).takeWhile isDigit).length = 0
      · rw [if_pos hds]
        have hnall := not_all_of_takeWhile_nil c0 t hds
        simp [uint64WellFormed, hnall]
      · rw [if_neg hds]
        by_cases hrest : (c0 :: t).dropWhile isDigit ≠ []
        · rw [if_pos hrest]
          have hnall := not_all_of_dropWhile_ne _ hrest
          simp [uint64WellFormed, hnall]
        · rw [if_neg hrest]
          push_neg at hrest
          have hall : (c0 :: t).all isDigit = true := by
            apply List.all_eq_true.2
            intro x hx
            exact (List.dropWhile_eq_nil_iff.1 hrest) x hx
          have htw := (takeWhile_of_all _ hall).1
          have hlen18 : (c0 :: t).length ≤ 18 := by
            rw [htw] at hfb
            simp only [List.length_cons] at hfb ⊢
            omega
          have hrange : digitsVal (c0 :: t) < 2 ^ 64 := by
            have h1 := digitsVal_lt _ hall
            have h2 : (10 : Nat) ^ (c0 :: t).length ≤ 10 ^ 18 :=
              Nat.pow_le_pow_right (by norm_num) hlen18
            have h3 : (10 : Nat) ^ 18 < 2 ^ 64 := by norm_num
            omega
          norm_num at hrange
          rw [htw]
          simp [uint64WellFormed, hall, hrange]

/-- The best-effort signed parser returns the strict value, with 0 in
place of every error. -/
theorem parseInt64BestEffort_eq_getD (s : List Nat) :
    parseInt64BestEffort s = (parseInt64 s).getD 0 := by
  cases s with
  | nil => rfl
  | cons c0 t =>
    by_cases hm : c0 = 45
    · subst hm
      rw [parseInt64_minus_eq, parseInt64BestEffort_minus_eq]
      by_cases hb : t = []
      · simp [hb]
      · rw [if_neg hb, if_neg hb]
        by_cases hfb : 1 + (t.takeWhile isDigit).length ≥ 19
        · simp [hfb]
        · rw [if_neg hfb, if_neg hfb]
          by_cases hds : (t.takeWhile isDigit).length = 0
          · simp [hds]
          · rw [if_neg hds, if_neg hds]
            by_cases hrest : t.dropWhile isDigit ≠ []
            · simp [hrest]
            · simp [hrest]
    · rw [parseInt64_pos_eq c0 t hm, parseInt64BestEffort_pos_eq c0 t hm]
      by_cases hfb : ((c0 :: t).takeWhile isDigit).length ≥ 19
      · simp [hfb]
      · rw [if_neg hfb, if_neg hfb]
        by_cases hds : ((c0 :: t).takeWhile isDigit).length = 0
        · simp [hds]
        · rw [if_neg hds, if_neg hds]
          by_cases hrest : (c0 :: t).dropWhile isDigit ≠ []
          · simp [hrest]
          · simp [hrest]

/-- The best-effort unsigned parser returns the strict value, with 0 in
place of every error. -/
theorem parseUint64BestEffort_eq_getD (s : List Nat) :
    parseUint64BestEffort s = (parseUint64 s).getD 0 := by
  cases s with
  | nil => rfl
  | cons c0 t =>
    rw [parseUint64_cons_eq, parseUint64BestEffort_cons_eq]
    by_cases hfb : ((c0 :: t).takeWhile isDigit).length ≥ 19
    · simp [hfb]
    · rw [if_neg hfb, if_neg hfb]
      by_cases hds : ((c0 :: t).takeWhile isDigit).length = 0
      · simp [hds]
      · rw [if_neg hds, if_neg hds]
        by_cases hrest : (c0 :: t).dropWhile isDigit ≠ []
        · simp [hrest]
        · simp [hrest]

/-- Counterexample to claim C8 as stated.  The 19-nines input
`9999999999999999999` is non-empty, consists only of digits, and has no
non-digit before end-of-input — none of the claim's enumerated error
cases — yet the strict parser errors (64-bit range overflow inside the
fallback) and the best-effort parser returns 0 instead of "the same value
as the strict variant".  Likewise `+5` has a digit after its sign, yet
both parsers reject it (the fast path consumes only a minus). -/
theorem c8_counterexample :
    parseInt64 (List.replicate 19 57) = none ∧
    parseInt64BestEffort (List.replicate 19 57) = 0 ∧
    List.replicate 19 57 ≠ ([] : List Nat) ∧
    (List.replicate 19 57).all isDigit = true ∧
    parseInt64 [43, 53] = none ∧
    parseInt64BestEffort [43, 53] = 0 ∧
    (([43, 53] : List Nat).drop 1).all isDigit = true := by
  refine ⟨by decide, by decide, by decide, by decide, by rfl, by rfl, by decide⟩

/-- Amended claim C8: the strict parsers return a value exactly for
well-formed decimal text — an optional minus (signed variant only; a plus
is rejected) followed by one or more digits to end of input — whose value
fits the 64-bit range (range overflow, detected in the `strconv` fallback
taken for long digit runs, is an error like the syntax cases); the
best-effort variants return the strict value and 0 exactly where the
strict variant errors. -/
theorem c8_integer_parsers (s : List Nat) :
    parseInt64BestEffort s = (parseInt64 s).getD 0 ∧
    parseUint64BestEffort s = (parseUint64 s).getD 0 ∧
    parseInt64 s =
      (if int64WellFormed s ∧ int64InRange s then some (int64Value s) else none) ∧
    parseUint64 s =
      (if uint64WellFormed s ∧ digitsVal s < 2 ^ 64 then some (digitsVal s) else none) :=
  ⟨parseInt64BestEffort_eq_getD s, parseUint64BestEffort_eq_getD s,
   parseInt64_spec s, parseUint64_spec s⟩

/-! ## Claim C7 (raw-string scanner) -/

theorem leadingBackslashes_append_stop (a b : List Nat) (c : Nat) (hc : c ≠ 92) :
    leadingBackslashes (a ++ c :: b) = leadingBackslashes a := by
  induction a with
  | nil => simp [leadingBackslashes, hc]
  | cons x t ih =>
    by_cases hx : x = 92
    · simp [leadingBackslashes, hx, ih]
    · simp [leadingBackslashes, hx]

/-- A quote interrupts any backslash run: the trailing-backslash count of
text ending beyond a quote is determined by the part after the quote. -/
theorem trailingBackslashes_append_quote (x y : List Nat) :
    trailingBackslashes (x ++ 34 :: y) = trailingBackslashes y := by
  unfold trailingBackslashes
  rw [List.reverse_append, List.reverse_cons, List.append_assoc]
  exact leadingBackslashes_append_stop y.reverse x.reverse 34 (by omega)

theorem splitAtByte_some :
    ∀ {s pre post : List Nat} {b : Nat}, splitAtByte b s = some (pre, post) →
      s = pre ++ b :: post ∧ b ∉ pre := by
  intro s
  induction s with
  | nil => intro pre post b h; simp [splitAtByte] at h
  | cons c t ih =>
    intro pre post b h
    simp only [splitAtByte] at h
    by_cases hc : c = b
    · rw [if_pos hc] at h
      obtain ⟨h1, h2⟩ := Prod.mk.injEq _ _ _ _ ▸ Option.some.injEq _ _ ▸ h
      subst h1; subst h2; subst hc
      exact ⟨rfl, by simp⟩
    · rw [if_neg hc] at h
      cases hsp : splitAtByte b t with
      | none => rw [hsp] at h; cases h
      | some pq =>
        obtain ⟨p, q⟩ := pq
        rw [hsp] at h
        obtain ⟨h1, h2⟩ := Prod.mk.injEq _ _ _ _ ▸ Option.some.injEq _ _ ▸ h
        obtain ⟨ht, hnp⟩ := ih hsp
        subst h2
        rw [← h1, ht]
        refine ⟨rfl, ?_⟩
        simp only [List.mem_cons, not_or]
        exact ⟨fun hbc => hc hbc.symm, hnp⟩

theorem splitAtByte_none :
    ∀ {s : List Nat} {b : Nat}, splitAtByte b s = none → b ∉ s := by
  intro s
  induction s with
  | nil => intro b _; simp
  | cons c t ih =>
    intro b h
    simp only [splitAtByte] at h
    by_cases hc : c = b
    · rw [if_pos hc] at h; cases h
    · rw [if_neg hc] at h
      cases hsp : splitAtByte b t with
      | none =>
        simp only [List.mem_cons, not_or]
        exact ⟨fun hbc => hc hbc.symm, ih hsp⟩
      | some pq => rw [hsp] at h; cases h

/-- A closing-quote test at a position inside a common prefix does not
depend on the text after the prefix. -/
theorem isClosingQuote_append_left {s1 : List Nat} (s2 s3 : List Nat) {p : Nat}
    (hp : p < s1.length) :
    isClosingQuote (s1 ++ s2) p = isClosingQuote (s1 ++ s3) p := by
  unfold isClosingQuote
  rw [List.getElem?_append_left hp, List.getElem?_append_left hp,
    List.take_append_of_le_length (le_of_lt hp), List.take_append_of_le_length (le_of_lt hp)]

/-- The position right after a prefix holding a quote is closing exactly
when the prefix ends in an even backslash run. -/
theorem isClosingQuote_at_append (s1 r : List Nat) :
    isClosingQuote (s1 ++ 34 :: r) s1.length = (trailingBackslashes s1 % 2 == 0) := by
  unfold isClosingQuote
  rw [List.getElem?_append_right (le_refl _), List.take_left]
  simp

/-- Jumping over a quote-terminated prefix shifts closing-quote positions. -/
theorem isClosingQuote_shift (pre post : List Nat) (q : Nat) :
    isClosingQuote (pre ++ 34 :: post) (pre.length + 1 + q) = isClosingQuote post q := by
  unfold isClosingQuote
  have h1 : (pre ++ 34 :: post)[pre.length + 1 + q]? = post[q]? := by
    rw [List.getElem?_append_right (by omega)]
    have : pre.length + 1 + q - pre.length = q + 1 := by omega
    rw [this]
    simp
  have h2 : (pre ++ 34 :: post).take (pre.length + 1 + q) = pre ++ 34 :: post.take q := by
    rw [show pre.length + 1 + q = pre.length + (q + 1) by omega, List.take_append,
      List.take_succ_cons]
  rw [h1, h2, trailingBackslashes_append_quote]

/-- Positions inside a quote-free prefix are never closing. -/
theorem isClosingQuote_in_prefix_false (pre post : List Nat) (h34 : (34 : Nat) ∉ pre)
    {p : Nat} (hp : p < pre.length) :
    isClosingQuote (pre ++ 34 :: post) p = false := by
  unfold isClosingQuote
  rw [List.getElem?_append_left hp]
  have hne : pre[p]? ≠ some 34 := by
    intro hcon
    obtain ⟨hlt, he⟩ := List.getElem?_eq_some.1 hcon
    exact h34 (he ▸ List.getElem_mem hlt)
  simp [hne]

/-- Characterization of the `parseRawString` loop: with sufficient fuel it
errors when no closing quote exists in the window, and stops at the first
closing quote otherwise (returning the accumulated prefix plus the window
up to the quote, with the tail after it). -/
theorem parseRawStringLoop_char :
    ∀ (n : Nat) (s : List Nat), s.length ≤ n → ∀ (f : Nat) (acc : List Nat), s.length < f →
      ((∀ p, isClosingQuote s p = false) →
          parseRawStringLoop f acc s = some (.error .missingClosingQuote)) ∧
      (∀ p, isClosingQuote s p = true → noClosingBefore s p →
          parseRawStringLoop f acc s = some (.ok (acc ++ s.take p, s.drop (p + 1)))) := by
  intro n
  induction n with
  | zero =>
    intro s hs f acc hf
    have hnil : s = [] := List.length_eq_zero.1 (by omega)
    subst hnil
    cases f with
    | zero => omega
    | succ f2 =>
      constructor
      · intro _; simp [parseRawStringLoop, splitAtByte]
      · intro p hp _
        exfalso
        simp [isClosingQuote] at hp
  | succ n ih =>
    intro s hs f acc hf
    cases f with
    | zero => omega
    | succ f2 =>
      cases hsp : splitAtByte 34 s with
      | none =>
        have h34 := splitAtByte_none hsp
        constructor
        · intro _; simp [parseRawStringLoop, hsp]
        · intro p hp _
          exfalso
          have hq : s[p]? = some 34 := by
            unfold isClosingQuote at hp
            simp only [Bool.and_eq_true, beq_iff_eq] at hp
            exact hp.1
          obtain ⟨hlt, he⟩ := List.getElem?_eq_some.1 hq
          exact h34 (he ▸ List.getElem_mem hlt)
      | some pq =>
        obtain ⟨pre, post⟩ := pq
        obtain ⟨hseq, h34pre⟩ := splitAtByte_some hsp
        subst hseq
        by_cases heven : trailingBackslashes pre % 2 = 0
        · have hclose : isClosingQuote (pre ++ 34 :: post) pre.length = true := by
            rw [isClosingQuote_at_append]; simp [heven]
          constructor
          · intro hall
            exact absurd hclose (by simp [hall])
          · intro p hp hmin
            have hpe : p = pre.length := by
              rcases lt_trichotomy p pre.length with h | h | h
              · rw [isClosingQuote_in_prefix_false pre post h34pre h] at hp; cases hp
              · exact h
              · exact absurd hclose (by simpa using hmin pre.length h)
            subst hpe
            simp only [parseRawStringLoop, hsp, heven, if_pos]
            rw [List.take_left, show pre.length + 1 = pre.length + 1 from rfl]
            have : (pre ++ 34 :: post).drop (pre.length + 1) = post := by
              rw [List.drop_append 1]; simp
            rw [this]
        · have hpostlen : post.length ≤ n := by
            simp only [List.length_append, List.length_cons] at hs; omega
          have hpostf : post.length < f2 := by
            simp only [List.length_append, List.length_cons] at hf; omega
          have IH := ih post hpostlen f2 (acc ++ pre ++ [34]) hpostf
          constructor
          · intro hall
            have hallpost : ∀ q, isClosingQuote post q = false := by
              intro q
              have := hall (pre.length + 1 + q)
              rwa [isClosingQuote_shift] at this
            simp only [parseRawStringLoop, hsp, heven, if_neg, not_false_iff]
            exact IH.1 hallpost
          · intro p hp hmin
            have hnotpre : ¬ p < pre.length := fun h => by
              rw [isClosingQuote_in_prefix_false pre post h34pre h] at hp; cases hp
            have hnoteq : p ≠ pre.length := by
              intro he
              subst he
              rw [isClosingQuote_at_append] at hp
              simp [heven] at hp
            have hgt : pre.length + 1 ≤ p := by omega
            have hpq : p = pre.length + 1 + (p - (pre.length + 1)) := by omega
            have hclq : isClosingQuote post (p - (pre.length + 1)) = true := by
              rw [← isClosingQuote_shift pre post]
              rw [← hpq]
              exact hp
            have hminq : noClosingBefore post (p - (pre.length + 1)) := by
              intro m hm
              have := hmin (pre.length + 1 + m) (by omega)
              rwa [isClosingQuote_shift] at this
            have hres := IH.2 (p - (pre.length + 1)) hclq hminq
            simp only [parseRawStringLoop, hsp, heven, if_neg, not_false_iff]
            rw [hres]
            have htake : (pre ++ 34 :: post).take p = pre ++ 34 :: post.take (p - (pre.length + 1)) := by
              conv_lhs => rw [hpq]
              rw [show pre.length + 1 + (p - (pre.length + 1)) =
                    pre.length + ((p - (pre.length + 1)) + 1) by omega,
                List.take_append, List.take_succ_cons]
            have hdrop : (pre ++ 34 :: post).drop (p + 1) = post.drop (p - (pre.length + 1) + 1) := by
              rw [show p + 1 = pre.length + ((p - (pre.length + 1) + 1) + 1) by omega,
                List.drop_append, List.drop_succ_cons]
            rw [htake, hdrop]
            simp [List.append_assoc]

/-- `parseRawString` stops at the first closing quote. -/
theorem parseRawString_closing {s : List Nat} {p : Nat}
    (hp : isClosingQuote s p = true) (hmin : noClosingBefore s p) :
    parseRawString s = .ok (s.take p, s.drop (p + 1)) := by
  unfold parseRawString
  rw [(parseRawStringLoop_char s.length s (le_refl _) (s.length + 1) [] (by omega)).2 p hp hmin]
  simp

/-- `parseRawString` errors when no closing quote exists. -/
theorem parseRawString_noClosing {s : List Nat}
    (h : ∀ p, isClosingQuote s p = false) :
    parseRawString s = .error .missingClosingQuote := by
  unfold parseRawString
  rw [(parseRawStringLoop_char s.length s (le_refl _) (s.length + 1) [] (by omega)).1 h]
  simp

/-- Success characterization of `parseRawString`. -/
theorem parseRawString_ok_char {s content tail : List Nat}
    (h : parseRawString s = .ok (content, tail)) :
    s = content ++ 34 :: tail ∧
      isClosingQuote s content.length = true ∧
      noClosingBefore s content.length := by
  by_cases hex : ∃ p, isClosingQuote s p = true
  · obtain ⟨q, hspec, hmin⟩ : ∃ q, isClosingQuote s q = true ∧ noClosingBefore s q := by
      refine ⟨Nat.find hex, Nat.find_spec hex, ?_⟩
      intro m hm
      have := Nat.find_min hex hm
      cases hb : isClosingQuote s m
      · rfl
      · exact absurd hb this
    rw [parseRawString_closing hspec hmin] at h
    obtain ⟨h1, h2⟩ := Prod.mk.injEq _ _ _ _ ▸ Except.ok.injEq _ _ ▸ h
    have hq34 : s[q]? = some 34 := by
      have h0 := hspec
      unfold isClosingQuote at h0
      simp only [Bool.and_eq_true, beq_iff_eq] at h0
      exact h0.1
    obtain ⟨hlt, he⟩ := List.getElem?_eq_some.1 hq34
    have hlen : content.length = q := by
      rw [← h1, List.length_take]
      omega
    refine ⟨?_, by rw [hlen]; exact hspec, by rw [hlen]; exact hmin⟩
    rw [← h1, ← h2]
    have hdq : s.drop q = 34 :: s.drop (q + 1) := by
      rw [List.drop_eq_getElem_cons hlt, he]
    conv_lhs => rw [← List.take_append_drop q s, hdq]
  · push_neg at hex
    have hall : ∀ p, isClosingQuote s p = false := by
      intro p
      have := hex p
      cases hb : isClosingQuote s p
      · rfl
      · exact absurd hb this
    rw [parseRawString_noClosing hall] at h
    cases h

/-- Error characterization of `parseRawString`. -/
theorem parseRawString_error_char {s : List Nat} {e : PErr}
    (h : parseRawString s = .error e) :
    e = .missingClosingQuote ∧ ∀ p, isClosingQuote s p = false := by
  by_cases hex : ∃ p, isClosingQuote s p = true
  · obtain ⟨q, hspec, hmin⟩ : ∃ q, isClosingQuote s q = true ∧ noClosingBefore s q := by
      refine ⟨Nat.find hex, Nat.find_spec hex, ?_⟩
      intro m hm
      have := Nat.find_min hex hm
      cases hb : isClosingQuote s m
      · rfl
      · exact absurd hb this
    rw [parseRawString_closing hspec hmin] at h
    cases h
  · push_neg at hex
    have hall : ∀ p, isClosingQuote s p = false := by
      intro p
      have := hex p
      cases hb : isClosingQuote s p
      · rfl
      · exact absurd hb this
    rw [parseRawString_noClosing hall] at h
    exact ⟨(Except.error.injEq _ _ ▸ h).symm, hall⟩

/-- Re-scanning a scanned raw string against any continuation closes at
the same place (the round-trip property used by claim C2). -/
theorem parseRawString_roundtrip {s content tail : List Nat}
    (h : parseRawString s = .ok (content, tail)) (r : List Nat) :
    parseRawString (content ++ 34 :: r) = .ok (content, r) := by
  obtain ⟨hs, hcl, hmin⟩ := parseRawString_ok_char h
  have hcl2 : isClosingQuote (content ++ 34 :: r) content.length = true := by
    rw [isClosingQuote_at_append]
    rw [hs, isClosingQuote_at_append] at hcl
    exact hcl
  have hmin2 : noClosingBefore (content ++ 34 :: r) content.length := by
    intro m hm
    have hf := hmin m hm
    rw [hs] at hf
    rw [isClosingQuote_append_left (34 :: r) (34 :: tail) hm]
    exact hf
  rw [parseRawString_closing hcl2 hmin2, List.take_left]
  have : (content ++ 34 :: r).drop (content.length + 1) = r := by
    rw [List.drop_append 1]; simp
  rw [this]

/-- Claim C7: given text after an opening quote, the scanner returns as
raw content the text up to the first quote preceded by an even number
(possibly zero) of consecutive backslashes, together with the tail after
that quote; quotes preceded by an odd backslash run are skipped; without
such a quote the scan fails with the missing-closing-quote error. -/
theorem c7_raw_string_scan (s : List Nat) :
    match parseRawString s with
    | .ok (content, tail) =>
        s = content ++ 34 :: tail ∧
        isClosingQuote s content.length = true ∧
        noClosingBefore s content.length
    | .error e => e = .missingClosingQuote ∧ ∀ p, isClosingQuote s p = false := by
  cases h : parseRawString s with
  | ok ct =>
    obtain ⟨content, tail⟩ := ct
    exact parseRawString_ok_char h
  | error e => exact parseRawString_error_char h

/-! ## Key scanner characterization and round trip -/

/-- Text free of quotes and backslashes (the fast-path key shape). -/
def SpecialFree (u : List Nat) : Prop :=
  ∀ x ∈ u, x ≠ 34 ∧ x ≠ 92

theorem trailingBackslashes_cons_of_ne (c : Nat) (x : List Nat) (hc : c ≠ 92) :
    trailingBackslashes (c :: x) = trailingBackslashes x := by
  unfold trailingBackslashes
  rw [List.reverse_cons]
  exact leadingBackslashes_append_stop x.reverse [] c hc

/-- Shifting a closing-quote test over a non-backslash head byte. -/
theorem isClosingQuote_cons_succ (c : Nat) (y : List Nat) (p : Nat) (hc : c ≠ 92) :
    isClosingQuote (c :: y) (p + 1) = isClosingQuote y p := by
  unfold isClosingQuote
  rw [List.getElem?_cons_succ, List.take_succ_cons, trailingBackslashes_cons_of_ne c _ hc]

theorem parseRawKeyLoop_specialFree :
    ∀ (u acc r orig : List Nat), SpecialFree u →
      parseRawKeyLoop orig acc (u ++ 34 :: r) = .ok (acc ++ u, r) := by
  intro u
  induction u with
  | nil => intro acc r orig _; simp [parseRawKeyLoop]
  | cons x xs ih =>
    intro acc r orig hsf
    obtain ⟨hx34, hx92⟩ := hsf x (by simp)
    have hxs : SpecialFree xs := fun y hy => hsf y (by simp [hy])
    simp only [List.cons_append, parseRawKeyLoop, hx34, hx92, if_neg, not_false_iff,
      List.append_eq]
    rw [ih (acc ++ [x]) r orig hxs]
    simp

theorem parseRawKeyLoop_toSlow :
    ∀ (u acc w orig : List Nat), SpecialFree u →
      parseRawKeyLoop orig acc (u ++ 92 :: w) = parseRawString orig := by
  intro u
  induction u with
  | nil => intro acc w orig _; simp [parseRawKeyLoop]
  | cons x xs ih =>
    intro acc w orig hsf
    obtain ⟨hx34, hx92⟩ := hsf x (by simp)
    have hxs : SpecialFree xs := fun y hy => hsf y (by simp [hy])
    simp only [List.cons_append, parseRawKeyLoop, hx34, hx92, if_neg, not_false_iff,
      List.append_eq]
    exact ih (acc ++ [x]) w orig hxs

theorem parseRawKeyLoop_ok_char :
    ∀ (u acc orig k t : List Nat), parseRawKeyLoop orig acc u = .ok (k, t) →
      (∃ u1, u = u1 ++ 34 :: t ∧ SpecialFree u1 ∧ k = acc ++ u1) ∨
        parseRawString orig = .ok (k, t) := by
  intro u
  induction u with
  | nil => intro acc orig k t h; cases h
  | cons c cs ih =>
    intro acc orig k t h
    simp only [parseRawKeyLoop] at h
    by_cases hc : c = 34
    · rw [if_pos hc] at h
      obtain ⟨h1, h2⟩ := Prod.mk.injEq _ _ _ _ ▸ Except.ok.injEq _ _ ▸ h
      left
      exact ⟨[], by simp [hc, h2], fun x hx => absurd hx (List.not_mem_nil x), by simp [← h1]⟩
    · rw [if_neg hc] at h
      by_cases hb : c = 92
      · rw [if_pos hb] at h
        right
        exact h
      · rw [if_neg hb] at h
        rcases ih (acc ++ [c]) orig k t h with ⟨u1, hu1, hsf, hk⟩ | hs
        · left
          refine ⟨c :: u1, by simp [hu1], ?_, by simp [hk]⟩
          intro x hx
          rcases List.mem_cons.1 hx with h1 | h1
          · subst h1; exact ⟨hc, hb⟩
          · exact hsf x h1
        · right
          exact hs

/-- Success characterization of `parseRawKey`: fast path (the key is
special-free and followed by its closing quote) or delegation to
`parseRawString` on the full input. -/
theorem parseRawKey_ok_char {s k t : List Nat} (h : parseRawKey s = .ok (k, t)) :
    (s = k ++ 34 :: t ∧ SpecialFree k) ∨ parseRawString s = .ok (k, t) := by
  rcases parseRawKeyLoop_ok_char s [] s k t h with ⟨u1, hu1, hsf, hk⟩ | hs
  · left
    simp only [List.nil_append] at hk
    subst hk
    exact ⟨hu1, hsf⟩
  · right
    exact hs

/-- Decomposition of a scanned raw-string content: since no closing quote
occurs inside it, its first special byte (if any) is a backslash. -/
theorem specialFree_or_backslash :
    ∀ (k : List Nat), (∀ X : List Nat, ∀ p, p < k.length → isClosingQuote (k ++ X) p = false) →
      SpecialFree k ∨ ∃ u w, k = u ++ 92 :: w ∧ SpecialFree u := by
  intro k
  induction k with
  | nil => intro _; left; intro x hx; cases hx
  | cons c k2 ih =>
    intro hnc
    by_cases hb : c = 92
    · right
      exact ⟨[], k2, by simp [hb], by intro x hx; cases hx⟩
    · by_cases hc : c = 34
      · exfalso
        subst hc
        have h0 := hnc [] 0 (by simp)
        unfold isClosingQuote at h0
        simp [trailingBackslashes, leadingBackslashes] at h0
      · have hk2 : ∀ X : List Nat, ∀ p, p < k2.length → isClosingQuote (k2 ++ X) p = false := by
          intro X p hp
          have := hnc X (p + 1) (by simp only [List.length_cons]; omega)
          rwa [List.cons_append, isClosingQuote_cons_succ c _ p hb] at this
        rcases ih hk2 with hsf | ⟨u, w, hkw, hsfu⟩
        · left
          intro x hx
          rcases List.mem_cons.1 hx with h1 | h1
          · subst h1; exact ⟨hc, hb⟩
          · exact hsf x h1
        · right
          refine ⟨c :: u, w, by simp [hkw], ?_⟩
          intro x hx
          rcases List.mem_cons.1 hx with h1 | h1
          · subst h1; exact ⟨hc, hb⟩
          · exact hsfu x h1

/-- Re-scanning a scanned key against any continuation closes at the same
place (the round-trip property used by claim C2). -/
theorem parseRawKey_roundtrip {s k t : List Nat}
    (h : parseRawKey s = .ok (k, t)) (r : List Nat) :
    parseRawKey (k ++ 34 :: r) = .ok (k, r) := by
  rcases parseRawKey_ok_char h with ⟨hs, hsf⟩ | hslow
  · unfold parseRawKey
    rw [parseRawKeyLoop_specialFree k [] r _ hsf]
    simp
  · obtain ⟨hs, hcl, hmin⟩ := parseRawString_ok_char hslow
    have hnc : ∀ X : List Nat, ∀ p, p < k.length → isClosingQuote (k ++ X) p = false := by
      intro X p hp
      have hf := hmin p hp
      rw [hs] at hf
      rw [isClosingQuote_append_left X (34 :: t) hp]
      exact hf
    have hrt := parseRawString_roundtrip hslow r
    rcases specialFree_or_backslash k hnc with hsf | ⟨u, w, hkw, hsfu⟩
    · unfold parseRawKey
      rw [parseRawKeyLoop_specialFree k [] r _ hsf]
      simp
    · unfold parseRawKey
      have harr : k ++ 34 :: r = u ++ 92 :: (w ++ 34 :: r) := by
        rw [hkw]
        simp
      rw [harr, parseRawKeyLoop_toSlow u [] _ _ hsfu, ← harr]
      exact hrt

/-- The tail returned by a successful `parseRawString` is strictly
shorter than the input. -/
theorem parseRawString_shrink {s k t : List Nat}
    (h : parseRawString s = .ok (k, t)) : t.length < s.length := by
  obtain ⟨hs, _, _⟩ := parseRawString_ok_char h
  rw [hs]
  simp only [List.length_append, List.length_cons]
  omega

/-- The tail returned by a successful `parseRawKey` is strictly shorter
than the input. -/
theorem parseRawKey_shrink {s k t : List Nat}
    (h : parseRawKey s = .ok (k, t)) : t.length < s.length := by
  rcases parseRawKey_ok_char h with ⟨hs, _⟩ | hslow
  · rw [hs]
    simp only [List.length_append, List.length_cons]
    omega
  · exact parseRawString_shrink hslow

/-! ## Claim C6 (unescaping) -/

theorem unescapeAmended_no_backslash : ∀ s : List Nat, 92 ∉ s → unescapeAmended s = s := by
  intro s
  induction s with
  | nil => intro _; simp [unescapeAmended]
  | cons c t ih =>
    intro h
    simp only [List.mem_cons, not_or] at h
    unfold unescapeAmended
    rw [if_neg (fun hcc => h.1 hcc.symm), ih h.2]

theorem unescapeAmended_prefix :
    ∀ (pre post : List Nat), 92 ∉ pre →
      unescapeAmended (pre ++ 92 :: post) = pre ++ unescapeAmended (92 :: post) := by
  intro pre
  induction pre with
  | nil => intro post _; rfl
  | cons c t ih =>
    intro post h
    simp only [List.mem_cons, not_or] at h
    rw [List.cons_append]
    conv_lhs => unfold unescapeAmended
    rw [if_neg (fun hcc => h.1 hcc.symm), ih post h.2]
    rfl

/-- The fueled escape loop computes the amended reference function: the
`scan` request on `s` returns `unescapeAmended s`, the `esc` request on
the text after a backslash returns `unescapeAmended (92 :: s)`. -/
theorem unescapeRun_char : ∀ f : Nat,
    (∀ s : List Nat, s.length < f → unescapeRun f (.scan s) = some (unescapeAmended s)) ∧
    (∀ s : List Nat, s.length < f → unescapeRun f (.esc s) = some (unescapeAmended (92 :: s))) := by
  intro f
  induction f with
  | zero => exact ⟨fun s hs => by omega, fun s hs => by omega⟩
  | succ f ih =>
    constructor
    · intro s hs
      simp only [unescapeRun]
      cases hsp : splitAtByte 92 s with
      | none =>
        rw [unescapeAmended_no_backslash s (splitAtByte_none hsp)]
      | some pq =>
        obtain ⟨pre, post⟩ := pq
        obtain ⟨hseq, hnb⟩ := splitAtByte_some hsp
        subst hseq
        have hlen : post.length < f := by
          simp only [List.length_append, List.length_cons] at hs
          omega
        dsimp only
        rw [ih.2 post hlen, unescapeAmended_prefix pre post hnb]
        rfl
    · intro s hs
      cases s with
      | nil =>
        simp only [unescapeRun]
        unfold unescapeAmended
        simp
      | cons ch s1 =>
        have h1 : s1.length < f := by
          simp only [List.length_cons] at hs
          omega
        have h1d : (s1.drop 4).length < f := by
          simp only [List.length_drop]
          omega
        have h1d6 : ((s1.drop 4).drop 6).length < f := by
          simp only [List.length_drop]
          omega
        conv_rhs => unfold unescapeAmended
        rw [if_pos rfl]
        by_cases h34 : ch = 34
        · simp [unescapeRun, h34, ih.1 s1 h1]
        · by_cases h92 : ch = 92
          · simp [unescapeRun, h34, h92, ih.1 s1 h1]
          · by_cases h47 : ch = 47
            · simp [unescapeRun, h34, h92, h47, ih.1 s1 h1]
            · by_cases h98 : ch = 98
              · simp [unescapeRun, h34, h92, h47, h98, ih.1 s1 h1]
              · by_cases h102 : ch = 102
                · simp [unescapeRun, h34, h92, h47, h98, h102, ih.1 s1 h1]
                · by_cases h110 : ch = 110
                  · simp [unescapeRun, h34, h92, h47, h98, h102, h110, ih.1 s1 h1]
                  · by_cases h114 : ch = 114
                    · simp [unescapeRun, h34, h92, h47, h98, h102, h110, h114, ih.1 s1 h1]
                    · by_cases h116 : ch = 116
                      · simp [unescapeRun, h34, h92, h47, h98, h102, h110, h114, h116,
                          ih.1 s1 h1]
                      · by_cases h117 : ch = 117
                        · subst h117
                          by_cases hlen4 : s1.length < 4
                          · simp [unescapeRun, h34, h92, h47, h98, h102, h110, h114, h116,
                              hlen4, ih.1 s1 h1]
                          · cases hx : hex4 (s1.take 4) with
                            | none =>
                              simp [unescapeRun, h34, h92, h47, h98, h102, h110, h114, h116,
                                hlen4, hx, ih.1 s1 h1]
                            | some x =>
                              have hih4 : unescapeRun f (UReq.scan (List.drop 4 s1)) =
                                  some (unescapeAmended (List.drop 4 s1)) := ih.1 _ h1d
                              have hih10 : unescapeRun f (UReq.scan (List.drop 10 s1)) =
                                  some (unescapeAmended (List.drop 10 s1)) :=
                                ih.1 (List.drop 10 s1)
                                  (by simp only [List.length_drop]; omega)
                              by_cases hsur : isSurrogate x
                              · by_cases hck :
                                    s1.length - 4 < 6 ∨
                                      List.take 2 (List.drop 4 s1) ≠ [92, 117]
                                · simp [unescapeRun, h34, h92, h47, h98, h102, h110, h114,
                                    h116, hlen4, hx, hsur, hck, hih4]
                                · cases hx1 : hex4 (List.take 4 (List.drop 6 s1)) with
                                  | none =>
                                    simp [unescapeRun, h34, h92, h47, h98, h102, h110, h114,
                                      h116, hlen4, hx, hsur, hck, hx1, hih4]
                                  | some x1 =>
                                    simp [unescapeRun, h34, h92, h47, h98, h102, h110, h114,
                                      h116, hlen4, hx, hsur, hck, hx1, hih10]
                              · simp [unescapeRun, h34, h92, h47, h98, h102, h110, h114,
                                  h116, hlen4, hx, hsur, hih4]
                        · simp [unescapeRun, h34, h92, h47, h98, h102, h110, h114, h116,
                            h117, ih.1 s1 h1]

/-- Counterexample to claim C6 as stated.  A backslash that is the last
byte of the input is an incomplete escape, but it is dropped rather than
passed through; and the lone high surrogate `\uD800` followed by the
well-formed escape `A` is not passed through as literal text —
both escapes are consumed and replaced by the single replacement
character U+FFFD (bytes EF BF BD). -/
theorem c6_counterexample :
    unescapeStringBestEffort [92] = [] ∧
    ([] : List Nat) ≠ [92] ∧
    unescapeStringBestEffort [92, 117, 68, 56, 48, 48, 92, 117, 48, 48, 52, 49] =
      [239, 191, 189] ∧
    ([239, 191, 189] : List Nat) ≠ [92, 117, 68, 56, 48, 48] ++ [65] :=
  ⟨by rfl, by decide, by rfl, by decide⟩

/-- Amended claim C6: unescaping never fails, translates the table
escapes and `\uXXXX` code points, combines adjacent escapes forming a
valid surrogate pair, and passes malformed or incomplete escapes through
unchanged — except that (a) a backslash that ends the input is dropped,
and (b) a surrogate `\uXXXX` followed immediately by another
syntactically valid `\uYYYY` that does not complete a valid pair is
replaced, together with that second escape, by U+FFFD.  Formally,
`unescapeStringBestEffort` equals the single-pass reference function
`unescapeAmended` implementing exactly that behavior. -/
theorem c6_unescape (s : List Nat) :
    unescapeStringBestEffort s = unescapeAmended s := by
  unfold unescapeStringBestEffort
  cases hsp : splitAtByte 92 s with
  | none =>
    rw [unescapeAmended_no_backslash s (splitAtByte_none hsp)]
  | some pq =>
    obtain ⟨pre, post⟩ := pq
    obtain ⟨hseq, hnb⟩ := splitAtByte_some hsp
    subst hseq
    have hlen : post.length < (pre ++ 92 :: post).length + 1 := by
      simp only [List.length_append, List.length_cons]
      omega
    dsimp only
    rw [(unescapeRun_char ((pre ++ 92 :: post).length + 1)).2 post hlen,
      unescapeAmended_prefix pre post hnb]
    rfl

/-! ### Claim C5 — float fast-path fallback conditions -/

theorem dropWhile_eq_drop (p : Nat → Bool) (l : List Nat) :
    l.dropWhile p = l.drop (l.takeWhile p).length := by
  have h := List.drop_left (l.takeWhile p) (l.dropWhile p)
  rw [List.takeWhile_append_dropWhile] at h
  exact h.symm

theorem takeWhile_add_dropWhile_length (p : Nat → Bool) (l : List Nat) :
    (l.takeWhile p).length + (l.dropWhile p).length = l.length := by
  conv_rhs => rw [← List.takeWhile_append_dropWhile p l]
  exact (List.length_append _ _).symm

theorem digitsValAux_le (l : List Nat) : ∀ acc, acc ≤ digitsValAux acc l := by
  induction l with
  | nil =>
    intro acc
    show acc ≤ acc
    exact le_refl acc
  | cons c t ih =>
    intro acc
    show acc ≤ digitsValAux (acc * 10 + (c - 48)) t
    exact le_trans (by omega) (ih (acc * 10 + (c - 48)))

theorem expLoop_none_iff (r : List Nat) : ∀ e, e ≤ 300 →
    (expLoop r e = none ↔ 300 < digitsValAux e (r.takeWhile isDigit)) := by
  induction r with
  | nil =>
    intro e he
    rw [List.takeWhile_nil]
    show some (e, ([] : List Nat)) = none ↔ 300 < e
    constructor
    · intro h
      exact absurd h (by simp)
    · intro h
      omega
  | cons c t ih =>
    intro e he
    by_cases hd : isDigit c
    · rw [expLoop, if_pos hd, List.takeWhile_cons, if_pos hd]
      by_cases hfire : 300 < e * 10 + (c - 48)
      · rw [if_pos hfire]
        exact iff_of_true rfl
          (lt_of_lt_of_le hfire (digitsValAux_le (t.takeWhile isDigit) _))
      · rw [if_neg hfire]
        exact ih _ (by omega)
    · rw [expLoop, if_neg hd, List.takeWhile_cons, if_neg hd]
      show some (e, c :: t) = none ↔ 300 < digitsValAux e []
      constructor
      · intro h
        exact absurd h (by simp)
      · intro h
        have hv : digitsValAux e [] = e := rfl
        exact absurd he (by omega)

theorem intLoop_spec (r : List Nat) : ∀ i, i ≤ 18 →
    intLoop r i =
      if 19 ≤ i + (r.takeWhile isDigit).length then none
      else some (i + (r.takeWhile isDigit).length, r.dropWhile isDigit) := by
  induction r with
  | nil =>
    intro i hi
    rw [intLoop, List.takeWhile_nil, List.dropWhile_nil]
    rw [if_neg (by simp only [List.length_nil]; omega)]
    simp only [List.length_nil, Nat.add_zero]
  | cons c t ih =>
    intro i hi
    by_cases hd : isDigit c
    · rw [intLoop, if_pos hd, List.takeWhile_cons, if_pos hd,
        List.dropWhile_cons_of_pos hd]
      by_cases h18 : i + 1 > 18
      · rw [if_pos h18, if_pos (by simp only [List.length_cons]; omega)]
      · rw [if_neg h18, ih (i + 1) (by omega), List.length_cons,
          show i + ((t.takeWhile isDigit).length + 1)
            = i + 1 + (t.takeWhile isDigit).length from by omega]
    · rw [intLoop, if_neg hd, List.takeWhile_cons, if_neg hd,
        List.dropWhile_cons_of_neg hd]
      rw [if_neg (by simp only [List.length_nil]; omega)]
      simp only [List.length_nil, Nat.add_zero]

theorem fracLoop_spec (r : List Nat) : ∀ j i, j ≤ i →
    fracLoop j r i =
      if 1 ≤ (r.takeWhile isDigit).length ∧
          17 ≤ i - j + (r.takeWhile isDigit).length then none
      else some (i + (r.takeWhile isDigit).length, r.dropWhile isDigit) := by
  induction r with
  | nil =>
    intro j i hji
    rw [fracLoop, List.takeWhile_nil, List.dropWhile_nil]
    rw [if_neg (by simp only [List.length_nil]; omega)]
    simp only [List.length_nil, Nat.add_zero]
  | cons c t ih =>
    intro j i hji
    by_cases hd : isDigit c
    · rw [fracLoop, if_pos hd, List.takeWhile_cons, if_pos hd,
        List.dropWhile_cons_of_pos hd]
      by_cases hfire : i + 1 - j ≥ 17
      · rw [if_pos hfire, if_pos (by simp only [List.length_cons]; omega)]
      · rw [if_neg hfire, ih j (i + 1) (by omega), List.length_cons]
        have hc : (1 ≤ (t.takeWhile isDigit).length ∧
              17 ≤ i + 1 - j + (t.takeWhile isDigit).length) ↔
            (1 ≤ (t.takeWhile isDigit).length + 1 ∧
              17 ≤ i - j + ((t.takeWhile isDigit).length + 1)) := by omega
        simp only [hc,
          show i + 1 + (t.takeWhile isDigit).length
            = i + ((t.takeWhile isDigit).length + 1) from by omega]
    · rw [fracLoop, if_neg hd, List.takeWhile_cons, if_neg hd,
        List.dropWhile_cons_of_neg hd]
      rw [if_neg (by simp only [List.length_nil]; omega)]
      simp only [List.length_nil, Nat.add_zero]

theorem expPartFallsBack_eq_amended (r : List Nat) :
    expPartFallsBack r = amendedExp r := by
  rw [expPartFallsBack, amendedExp]
  by_cases he : r.take 1 ≠ [101] ∧ r.take 1 ≠ [69]
  · rw [if_pos he, if_pos he]
  · rw [if_neg he, if_neg he]
    dsimp only
    by_cases h1 : r.drop 1 = []
    · rw [if_pos h1, h1]
      rfl
    · rw [if_neg h1]
      obtain ⟨r2, hr2⟩ : ∃ x, (if (r.drop 1).take 1 = [43] ∨ (r.drop 1).take 1 = [45]
          then (r.drop 1).drop 1 else r.drop 1) = x := ⟨_, rfl⟩
      rw [hr2]
      by_cases h2 : r2 = []
      · rw [if_pos h2, h2]
        rfl
      · rw [if_neg h2]
        have hiff := expLoop_none_iff r2 0 (by omega)
        cases hel : expLoop r2 0 with
        | none =>
          have h300 : 300 < digitsVal (r2.takeWhile isDigit) := hiff.mp hel
          exact (decide_eq_true h300).symm
        | some p =>
          have h300 : ¬ 300 < digitsVal (r2.takeWhile isDigit) := by
            intro hc
            rw [hiff.mpr hc] at hel
            exact Option.noConfusion hel
          exact (decide_eq_false h300).symm

theorem parseBestEffort_amended (s : List Nat) :
    parseBestEffortFallsBack s = amendedFallsBack s := by
  by_cases hnil : s = []
  · rw [hnil]
    rfl
  · rw [parseBestEffortFallsBack, amendedFallsBack, if_neg hnil, if_neg hnil]
    dsimp only
    rw [show (if s.take 1 = [45] then (1:Nat) else 0) = floatSignLen s from rfl]
    obtain ⟨m, hm⟩ : ∃ m, floatSignLen s = m := ⟨_, rfl⟩
    have hm1 : m ≤ 1 := by
      rw [← hm, floatSignLen]
      split <;> omega
    rw [hm]
    have hdI : intDigitCount s = ((s.drop m).takeWhile isDigit).length := by
      rw [intDigitCount, hm]
    have hAI : afterIntPart s = (s.drop m).dropWhile isDigit := by
      rw [afterIntPart, hm]
    by_cases hsl : s.length ≤ m
    · rw [if_pos hsl, if_pos hsl]
    · rw [if_neg hsl, if_neg hsl]
      by_cases hdot : (s.drop m).take 1 = [46] ∧ ¬ ((s.drop (m+1)).take 1).any isDigit
      · rw [if_pos hdot, if_pos hdot]
      · rw [if_neg hdot, if_neg hdot]
        rw [intLoop_spec (s.drop m) m (by omega)]
        obtain ⟨run, hrun⟩ : ∃ x, ((s.drop m).takeWhile isDigit).length = x := ⟨_, rfl⟩
        obtain ⟨rest2, hrest2⟩ : ∃ x, (s.drop m).dropWhile isDigit = x := ⟨_, rfl⟩
        rw [hrun] at hdI
        rw [hrest2] at hAI
        rw [hrun, hrest2]
        have hre2 : rest2 = s.drop (m + run) := by
          rw [← hrest2, dropWhile_eq_drop, hrun, List.drop_drop]
        have hlen2 : run + rest2.length = s.length - m := by
          rw [← hrun, ← hrest2]
          have h := takeWhile_add_dropWhile_length isDigit (s.drop m)
          rw [List.length_drop] at h
          exact h
        have hfrb : (hasFracPart s = true) ↔ rest2.take 1 = [46] := by
          rw [hasFracPart, hAI]
          exact decide_eq_true_iff
        by_cases h19 : 19 ≤ m + run
        · rw [if_pos h19]
          rw [if_pos (show m + intDigitCount s ≥ 19 from by rw [hdI]; omega)]
        · rw [if_neg h19]
          dsimp only
          rw [if_neg (show ¬ m + intDigitCount s ≥ 19 from by rw [hdI]; omega)]
          by_cases hfc : rest2.take 1 = [46]
          · rw [if_neg (show ¬ (m + run ≤ m ∧ rest2.take 1 ≠ [46]) from
              fun h => h.2 hfc)]
            rw [if_neg (show ¬ (intDigitCount s = 0 ∧ ¬ hasFracPart s = true) from
              fun h => h.2 (hfrb.mpr hfc))]
            by_cases hre : rest2 = []
            · rw [if_pos hre]
              rw [if_pos (show s.length ≤ m + intDigitCount s from by
                rw [hdI]
                have : rest2.length = 0 := by rw [hre]; rfl
                omega)]
            · rw [if_neg hre]
              have hrp : 0 < rest2.length := List.length_pos.mpr hre
              rw [if_neg (show ¬ s.length ≤ m + intDigitCount s from by
                rw [hdI]; omega)]
              rw [if_pos hfc, if_pos (hfrb.mpr hfc)]
              have hfd : fracDigitCount s = ((rest2.drop 1).takeWhile isDigit).length := by
                rw [fracDigitCount, if_pos (hfrb.mpr hfc), hAI]
              have hAF : afterFracPart s = (rest2.drop 1).dropWhile isDigit := by
                rw [afterFracPart, if_pos (hfrb.mpr hfc), hAI]
              by_cases hr3 : rest2.drop 1 = []
              · rw [if_pos hr3]
                have hr2len : rest2.length ≤ 1 := by
                  have := congrArg List.length hr3
                  simp only [List.length_drop, List.length_nil] at this
                  omega
                rw [if_pos (show s.length ≤ m + intDigitCount s + 1 from by
                  rw [hdI]; omega)]
              · rw [if_neg hr3]
                have hr2len2 : 2 ≤ rest2.length := by
                  have hp := List.length_pos.mpr hr3
                  rw [List.length_drop] at hp
                  omega
                rw [if_neg (show ¬ s.length ≤ m + intDigitCount s + 1 from by
                  rw [hdI]; omega)]
                rw [fracLoop_spec (rest2.drop 1) m (m + run + 1) (by omega)]
                rw [show m + run + 1 - m = run + 1 from by omega]
                obtain ⟨frun, hfrun⟩ : ∃ x, ((rest2.drop 1).takeWhile isDigit).length = x :=
                  ⟨_, rfl⟩
                obtain ⟨rest4, hrest4⟩ : ∃ x, (rest2.drop 1).dropWhile isDigit = x :=
                  ⟨_, rfl⟩
                rw [hfrun] at hfd
                rw [hrest4] at hAF
                rw [hfrun, hrest4]
                have hlen3 : frun + rest4.length + 1 = rest2.length := by
                  rw [← hfrun, ← hrest4]
                  have h := takeWhile_add_dropWhile_length isDigit (rest2.drop 1)
                  rw [List.length_drop] at h
                  omega
                have hre4 : rest4 = s.drop (m + run + 1 + frun) := by
                  rw [← hrest4, dropWhile_eq_drop, hfrun, List.drop_drop, hre2,
                    List.drop_drop]
                  rw [show m + run + (1 + frun) = m + run + 1 + frun from by omega]
                by_cases hff : 1 ≤ frun ∧ 17 ≤ run + 1 + frun
                · rw [if_pos hff]
                  dsimp only
                  rw [if_pos (show 1 ≤ fracDigitCount s ∧
                      intDigitCount s + 1 + fracDigitCount s ≥ 17 from by
                    rw [hdI, hfd]
                    exact ⟨hff.1, by omega⟩)]
                · rw [if_neg hff]
                  dsimp only
                  rw [if_neg (show ¬ (1 ≤ fracDigitCount s ∧
                      intDigitCount s + 1 + fracDigitCount s ≥ 17) from by
                    rw [hdI, hfd]
                    intro h
                    exact hff ⟨h.1, by omega⟩)]
                  by_cases hr4 : rest4 = []
                  · rw [if_pos hr4]
                    have : rest4.length = 0 := by rw [hr4]; rfl
                    rw [if_pos (show s.length ≤ m + intDigitCount s + 1 + fracDigitCount s
                      from by rw [hdI, hfd]; omega)]
                  · rw [if_neg hr4]
                    have hrp4 : 0 < rest4.length := List.length_pos.mpr hr4
                    rw [if_neg (show ¬ s.length ≤ m + intDigitCount s + 1 + fracDigitCount s
                      from by rw [hdI, hfd]; omega)]
                    rw [expPartFallsBack_eq_amended]
                    rw [hdI, hfd, ← hre4]
          · rw [if_neg (show ¬ hasFracPart s = true from fun hh => hfc (hfrb.mp hh))]
            by_cases hr0 : run = 0
            · rw [if_pos (show m + run ≤ m ∧ rest2.take 1 ≠ [46] from
                ⟨by omega, hfc⟩)]
              rw [if_pos (show intDigitCount s = 0 ∧ ¬ hasFracPart s = true from
                ⟨hdI.trans hr0, fun hh => hfc (hfrb.mp hh)⟩)]
            · rw [if_neg (show ¬ (m + run ≤ m ∧ rest2.take 1 ≠ [46]) from
                fun h => hr0 (by omega))]
              rw [if_neg (show ¬ (intDigitCount s = 0 ∧ ¬ hasFracPart s = true) from
                fun h => hr0 (hdI.symm.trans h.1))]
              by_cases hre : rest2 = []
              · rw [if_pos hre]
                rw [if_pos (show s.length ≤ m + intDigitCount s from by
                  rw [hdI]
                  have : rest2.length = 0 := by rw [hre]; rfl
                  omega)]
              · rw [if_neg hre]
                have hrp : 0 < rest2.length := List.length_pos.mpr hre
                rw [if_neg (show ¬ s.length ≤ m + intDigitCount s from by
                  rw [hdI]; omega)]
                rw [if_neg hfc]
                rw [expPartFallsBack_eq_amended]
                rw [hdI, ← hre2]

theorem parseFloat_eq_bestEffort_fallback (s : List Nat) :
    parseFloatFallsBack s = parseBestEffortFallsBack s := rfl

/-- Counterexample to claim C5 as stated.  The text `-999999999999999999`
(a minus sign followed by 18 nines) has an 18-digit integer mantissa, no
fractional digits and no exponent, yet both float parsers abandon the
fast accumulator and call `strconv.ParseFloat`: the fallback counter `i`
counts the minus sign as a position, so it exceeds 18 after only 18
digits. -/
theorem c5_counterexample :
    parseBestEffortFallsBack (45 :: List.replicate 18 57) = true ∧
    parseFloatFallsBack (45 :: List.replicate 18 57) = true ∧
    intDigitCount (45 :: List.replicate 18 57) ≤ 18 ∧
    fracDigitCount (45 :: List.replicate 18 57) ≤ 17 ∧
    expMagnitude (45 :: List.replicate 18 57) ≤ 300 := by
  refine ⟨by decide, by decide, by decide, by decide, by decide⟩

/-- Amended claim C5: both float parsers reach `strconv.ParseFloat`
exactly when — having passed the early-return checks — the sign-inclusive
position counter reaches 19 inside the integer digits (19 digits
unsigned, 18 with a minus), or a fractional part with at least one digit
satisfies intDigits + 1 + fracDigits ≥ 17 (the position counter there
includes the decimal point but restarts after the sign), or the exponent
digit run has value exceeding 300; in those cases they return the
fallback routine's result. -/
theorem c5_float_fallback (s : List Nat) :
    parseBestEffortFallsBack s = amendedFallsBack s ∧
      parseFloatFallsBack s = amendedFallsBack s :=
  ⟨parseBestEffort_amended s,
    (parseFloat_eq_bestEffort_fallback s).trans (parseBestEffort_amended s)⟩

/-! ## Claim C2 (marshal/parse round trip) -/

theorem takeWhile_append_of_all {p : Nat → Bool} :
    ∀ {a : List Nat}, (∀ x ∈ a, p x = true) → ∀ b,
      (a ++ b).takeWhile p = a ++ b.takeWhile p := by
  intro a
  induction a with
  | nil => intro _ b; simp
  | cons x xs ih =>
    intro h b
    have hx : p x = true := h x (by simp)
    rw [List.cons_append, List.takeWhile_cons, if_pos hx, ih (fun y hy => h y (by simp [hy])) b]
    rfl

theorem dropWhile_append_of_all {p : Nat → Bool} :
    ∀ {a : List Nat}, (∀ x ∈ a, p x = true) → ∀ b,
      (a ++ b).dropWhile p = b.dropWhile p := by
  intro a
  induction a with
  | nil => intro _ b; simp
  | cons x xs ih =>
    intro h b
    have hx : p x = true := h x (by simp)
    rw [List.cons_append, List.dropWhile_cons, if_pos hx, ih (fun y hy => h y (by simp [hy])) b]

theorem VList_appendAll_cons :
    ∀ (l acc : VList) (v0 : Value),
      VList.appendAll (.cons v0 acc) l = .cons v0 (VList.appendAll acc l)
  | .nil, acc, v0 => rfl
  | .cons v t, acc, v0 => VList_appendAll_cons t (acc.snoc v) v0

theorem VList_appendAll_nil :
    ∀ l : VList, VList.appendAll .nil l = l
  | .nil => rfl
  | .cons v t => by
    show VList.appendAll (.cons v .nil) t = VList.cons v t
    rw [VList_appendAll_cons, VList_appendAll_nil t]

theorem KVList_appendAll_cons :
    ∀ (l acc : KVList) (k0 : List Nat) (v0 : Value),
      KVList.appendAll (.cons k0 v0 acc) l = .cons k0 v0 (KVList.appendAll acc l)
  | .nil, acc, k0, v0 => rfl
  | .cons k v t, acc, k0, v0 => KVList_appendAll_cons t (acc.snoc k v) k0 v0

theorem KVList_appendAll_nil :
    ∀ l : KVList, KVList.appendAll .nil l = l
  | .nil => rfl
  | .cons k v t => by
    show KVList.appendAll (.cons k v .nil) t = KVList.cons k v t
    rw [KVList_appendAll_cons, KVList_appendAll_nil t]

theorem depthOfVL_snoc :
    ∀ (acc : VList) (v : Value),
      depthOfVL (acc.snoc v) = max (depthOfVL acc) (depthOf v)
  | .nil, v => by simp [VList.snoc, depthOfVL, depthOf]
  | .cons v0 t, v => by
    show max (depthOf v0) (depthOfVL (t.snoc v)) = _
    rw [depthOfVL_snoc t v]
    show _ = max (max (depthOf v0) (depthOfVL t)) (depthOf v)
    omega

theorem depthOfKVs_snoc :
    ∀ (acc : KVList) (k : List Nat) (v : Value),
      depthOfKVs (acc.snoc k v) = max (depthOfKVs acc) (depthOf v)
  | .nil, k, v => by simp [KVList.snoc, depthOfKVs, depthOf]
  | .cons k0 v0 t, k, v => by
    show max (depthOf v0) (depthOfKVs (t.snoc k v)) = _
    rw [depthOfKVs_snoc t k v]
    show _ = max (max (depthOf v0) (depthOfKVs t)) (depthOf v)
    omega

theorem GoodVL_snoc :
    ∀ (acc : VList), GoodVL acc → ∀ (v : Value), GoodVal v → GoodVL (acc.snoc v)
  | .nil, _, v, hv => .cons v .nil hv .nil
  | .cons v0 t, h, v, hv => by
    cases h with
    | cons _ _ hv0 ht => exact .cons v0 (t.snoc v) hv0 (GoodVL_snoc t ht v hv)

theorem GoodKVs_snoc :
    ∀ (acc : KVList), GoodKVs acc → ∀ (k : List Nat) (v : Value),
      KeyOK k → GoodVal v → GoodKVs (acc.snoc k v)
  | .nil, _, k, v, hk, hv => .cons k v .nil hk hv .nil
  | .cons k0 v0 t, h, k, v, hk, hv => by
    cases h with
    | cons _ _ _ hk0 hv0 ht =>
      exact .cons k0 v0 (t.snoc k v) hk0 hv0 (GoodKVs_snoc t ht k v hk hv)

theorem skipWS_not_ws {c : Nat} (h : isWS c = false) (t : List Nat) :
    skipWS (c :: t) = c :: t := by
  rw [skipWS, h]
  simp

/-- A number-class byte is none of the `parseValue` dispatch bytes, no
whitespace, and no structural byte. -/
theorem isNumChar_facts {c : Nat} (h : isNumChar c = true) :
    c ≠ 123 ∧ c ≠ 91 ∧ c ≠ 34 ∧ c ≠ 116 ∧ c ≠ 102 ∧ c ≠ 110 ∧
      isWS c = false ∧ c ≠ 93 ∧ c ≠ 125 ∧ c ≠ 44 := by
  simp only [isNumChar, Bool.or_eq_true, Bool.and_eq_true, beq_iff_eq,
    decide_eq_true_eq] at h
  simp only [isWS, Bool.or_eq_true, beq_iff_eq]
  constructor
  · omega
  constructor
  · omega
  constructor
  · omega
  constructor
  · omega
  constructor
  · omega
  constructor
  · omega
  constructor
  · rw [Bool.eq_false_iff]
    simp only [ne_eq, Bool.or_eq_true, beq_iff_eq]
    omega
  refine ⟨by omega, by omega, by omega⟩

theorem eqFold_three {tok : List Nat} {l1 l2 l3 : Nat}
    (h : eqFold tok [l1, l2, l3] = true) :
    ∃ a b c, tok = [a, b, c] ∧ asciiLower a = asciiLower l1 ∧
      asciiLower b = asciiLower l2 ∧ asciiLower c = asciiLower l3 := by
  simp only [eqFold, beq_iff_eq] at h
  cases tok with
  | nil => simp at h
  | cons a t1 =>
    cases t1 with
    | nil => simp at h
    | cons b t2 =>
      cases t2 with
      | nil => simp at h
      | cons c t3 =>
        cases t3 with
        | cons d t4 => simp at h
        | nil =>
          simp only [List.map_cons, List.map_nil, List.cons.injEq, and_true] at h
          exact ⟨a, b, c, rfl, h.1, h.2.1, h.2.2⟩

theorem asciiLower_inv {a x : Nat} (h : asciiLower a = x) :
    a = x ∨ (65 ≤ a ∧ a ≤ 90 ∧ a + 32 = x) := by
  unfold asciiLower at h
  split at h
  · right
    omega
  · left
    exact h

theorem isWS_false_of (c : Nat) (h1 : c ≠ 32) (h2 : c ≠ 10) (h3 : c ≠ 9) (h4 : c ≠ 13) :
    isWS c = false := by
  simp only [isWS]
  rw [Bool.eq_false_iff]
  simp only [ne_eq, Bool.or_eq_true, beq_iff_eq]
  omega

theorem marshalValue_head {v : Value} (hg : GoodVal v) :
    ∃ c rest, marshalValue v = c :: rest ∧ isWS c = false ∧ c ≠ 93 := by
  cases hg with
  | null => exact ⟨110, [117, 108, 108], rfl, by decide, by decide⟩
  | isTrue => exact ⟨116, [114, 117, 101], rfl, by decide, by decide⟩
  | isFalse => exact ⟨102, [97, 108, 115, 101], rfl, by decide, by decide⟩
  | raw ss h => exact ⟨34, ss ++ [34], by rw [marshalValue, List.cons_append], by decide, by decide⟩
  | arr a h => exact ⟨91, marshalVList a, by rw [marshalValue], by decide, by decide⟩
  | obj kvs h => exact ⟨123, marshalKVs false kvs, by rw [marshalValue], by decide, by decide⟩
  | num ns h =>
    rcases h with ⟨hne, hall, h45, h43⟩ | ⟨sg, tok, hsg, hns, htok3, hfold⟩
    · cases ns with
      | nil => exact absurd rfl hne
      | cons c0 ns1 =>
        have hc0 : isNumChar c0 = true := by
          have := List.all_eq_true.mp hall c0 (by simp)
          simpa using this
        have hf := isNumChar_facts hc0
        exact ⟨c0, ns1, rfl, hf.2.2.2.2.2.2.1, hf.2.2.2.2.2.2.2.1⟩
    · have hlow : ∃ a b c, tok = [a, b, c] ∧
          ((a = 105 ∨ a = 73) ∨ (a = 110 ∨ a = 78)) := by
        rcases hfold with hinf | hnan
        · rw [infLit] at hinf
          obtain ⟨a, b, c, htk, ha, hb, hc⟩ := eqFold_three hinf
          rw [show asciiLower 105 = 105 from rfl] at ha
          refine ⟨a, b, c, htk, Or.inl ?_⟩
          rcases asciiLower_inv ha with h1 | h1
          · left; exact h1
          · right; omega
        · rw [nanLit] at hnan
          obtain ⟨a, b, c, htk, ha, hb, hc⟩ := eqFold_three hnan
          rw [show asciiLower 110 = 110 from rfl] at ha
          refine ⟨a, b, c, htk, Or.inr ?_⟩
          rcases asciiLower_inv ha with h1 | h1
          · left; exact h1
          · right; omega
      obtain ⟨a, b, c, htk, hav⟩ := hlow
      rcases hsg with h0 | h0 | h0 <;> subst h0 <;> subst hns <;> subst htk
      · refine ⟨a, [b, c], by simp [marshalValue], isWS_false_of a (by omega) (by omega)
          (by omega) (by omega), by omega⟩
      · exact ⟨45, [a, b, c], by simp [marshalValue], by decide, by decide⟩
      · exact ⟨43, [a, b, c], by simp [marshalValue], by decide, by decide⟩

theorem innerTail_scan (r : List Nat) (hr : InnerTail r) :
    List.takeWhile isNumChar r = [] ∧ List.dropWhile isNumChar r = r := by
  rcases hr with h | ⟨t, h⟩ | ⟨t, h⟩ | ⟨t, h⟩ <;> subst h <;>
    simp [List.takeWhile_cons, List.dropWhile_cons,
      show isNumChar 44 = false from rfl, show isNumChar 93 = false from rfl,
      show isNumChar 125 = false from rfl]

theorem parseRawNumber_run {ns : List Nat} (hne : ns ≠ []) (hall : ns.all isNumChar = true)
    (h45 : ns ≠ [45]) (h43 : ns ≠ [43]) {r : List Nat} (hr : InnerTail r) :
    parseRawNumber (ns ++ r) = .ok (ns, r) := by
  have hmem : ∀ x ∈ ns, isNumChar x = true := by
    intro x hx
    simpa using List.all_eq_true.mp hall x hx
  obtain ⟨htw, hdw⟩ := innerTail_scan r hr
  rw [parseRawNumber]
  rw [takeWhile_append_of_all hmem r, dropWhile_append_of_all hmem r, htw, hdw,
    List.append_nil]
  cases r with
  | nil => simp
  | cons c t =>
    have hnotsign : ¬ (ns.length = 0 ∨ (ns.length = 1 ∧
        ((ns ++ c :: t).take 1 = [45] ∨ (ns ++ c :: t).take 1 = [43]))) := by
      rintro (h0 | ⟨h1, hs⟩)
      · exact hne (List.length_eq_zero.mp h0)
      · obtain ⟨c0, hc0⟩ := List.length_eq_one.mp h1
        subst hc0
        simp only [List.singleton_append, List.take_succ_cons, List.take_zero,
          List.cons.injEq, and_true] at hs
        rcases hs with hs | hs
        · exact h45 (by rw [hs])
        · exact h43 (by rw [hs])
    rw [if_neg hnotsign]

theorem isNumChar_false_of_letter {a : Nat}
    (ha : a = 105 ∨ a = 73 ∨ a = 110 ∨ a = 78) : isNumChar a = false := by
  rw [Bool.eq_false_iff]
  simp only [isNumChar, ne_eq, Bool.or_eq_true, Bool.and_eq_true, beq_iff_eq,
    decide_eq_true_eq]
  omega

theorem eqFold_letters {tok : List Nat}
    (hfold : eqFold tok infLit = true ∨ eqFold tok nanLit = true) :
    ∃ a b c, tok = [a, b, c] ∧
      ((a = 105 ∨ a = 73) ∧ (b = 110 ∨ b = 78) ∨
        (a = 110 ∨ a = 78) ∧ (b = 97 ∨ b = 65)) := by
  rcases hfold with hinf | hnan
  · rw [infLit] at hinf
    obtain ⟨a, b, c, htk, ha, hb, hc⟩ := eqFold_three hinf
    rw [show asciiLower 105 = 105 from rfl] at ha
    rw [show asciiLower 110 = 110 from rfl] at hb
    refine ⟨a, b, c, htk, Or.inl ⟨?_, ?_⟩⟩
    · rcases asciiLower_inv ha with h1 | h1
      · left; exact h1
      · right; omega
    · rcases asciiLower_inv hb with h1 | h1
      · left; exact h1
      · right; omega
  · rw [nanLit] at hnan
    obtain ⟨a, b, c, htk, ha, hb, hc⟩ := eqFold_three hnan
    rw [show asciiLower 110 = 110 from rfl] at ha
    rw [show asciiLower 97 = 97 from rfl] at hb
    refine ⟨a, b, c, htk, Or.inr ⟨?_, ?_⟩⟩
    · rcases asciiLower_inv ha with h1 | h1
      · left; exact h1
      · right; omega
    · rcases asciiLower_inv hb with h1 | h1
      · left; exact h1
      · right; omega

theorem parseRawNumber_infnan {sg tok : List Nat}
    (hsg : sg = [] ∨ sg = [45] ∨ sg = [43]) (htok3 : tok.length = 3)
    (hfold : eqFold tok infLit = true ∨ eqFold tok nanLit = true)
    (r : List Nat) :
    parseRawNumber ((sg ++ tok) ++ r) = .ok (sg ++ tok, r) := by
  obtain ⟨a, b, c, htk, hab⟩ := eqFold_letters hfold
  have hna : isNumChar a = false := by
    apply isNumChar_false_of_letter
    rcases hab with ⟨h1, _⟩ | ⟨h1, _⟩ <;> rcases h1 with h1 | h1 <;> omega
  have htake3 : (tok ++ r).take 3 = tok := by
    rw [← htok3, List.take_left]
  have hdrop3 : (tok ++ r).drop 3 = r := by
    rw [← htok3, List.drop_left]
  have hfold2 : eqFold ((tok ++ r).take 3) infLit = true ∨
      eqFold ((tok ++ r).take 3) nanLit = true := by
    rw [htake3]
    exact hfold
  have hlen3 : 3 ≤ (tok ++ r).length := by
    simp only [List.length_append]
    omega
  rcases hsg with h0 | h0 | h0 <;> subst h0
  · rw [List.nil_append, parseRawNumber]
    rw [htk, List.cons_append, List.takeWhile_cons, hna]
    rw [htk] at hfold2 hlen3 htake3 hdrop3
    rw [List.dropWhile_cons, hna]
    simp only [if_false, Bool.false_eq_true, List.length_nil, List.cons_append]
    rw [if_pos (Or.inl (by trivial)), if_pos ⟨by simpa using hlen3, by simpa using hfold2⟩]
    simp
  · rw [parseRawNumber]
    have hs : (([45] ++ tok) ++ r : List Nat) = 45 :: (tok ++ r) := by simp
    rw [hs, List.takeWhile_cons, List.dropWhile_cons]
    have h45n : isNumChar 45 = true := rfl
    rw [h45n, htk, List.cons_append, List.takeWhile_cons, hna, List.dropWhile_cons, hna]
    rw [← List.cons_append, ← htk]
    simp only [if_true, if_false, Bool.false_eq_true]
    cases htokr : tok ++ r with
    | nil => rw [htk] at htokr; cases htokr
    | cons x xs =>
      rw [← htokr]
      rw [if_pos (Or.inr ⟨rfl, Or.inl (by simp)⟩)]
      rw [if_pos ⟨by simpa using hlen3, by simpa using hfold2⟩]
      have ht4 : (45 :: (tok ++ r)).take (List.length ([45] : List Nat) + 3) =
          [45] ++ tok := by
        simp only [List.length_cons, List.length_nil, List.take_succ_cons]
        rw [htake3]
        rfl
      have hd4 : (45 :: (tok ++ r)).drop (List.length ([45] : List Nat) + 3) = r := by
        simp only [List.length_cons, List.length_nil, List.drop_succ_cons]
        exact hdrop3
      simp only [List.length_cons, List.length_nil] at ht4 hd4
      rw [show (1:Nat) + 3 = 4 from rfl] at ht4 hd4
      rw [show (([45] : List Nat).length + 3) = 4 from rfl]
      rw [ht4, hd4, htokr]
  · rw [parseRawNumber]
    have hs : (([43] ++ tok) ++ r : List Nat) = 43 :: (tok ++ r) := by simp
    rw [hs, List.takeWhile_cons, List.dropWhile_cons]
    have h43n : isNumChar 43 = true := rfl
    rw [h43n, htk, List.cons_append, List.takeWhile_cons, hna, List.dropWhile_cons, hna]
    rw [← List.cons_append, ← htk]
    simp only [if_true, if_false, Bool.false_eq_true]
    cases htokr : tok ++ r with
    | nil => rw [htk] at htokr; cases htokr
    | cons x xs =>
      rw [← htokr]
      rw [if_pos (Or.inr ⟨rfl, Or.inr (by simp)⟩)]
      rw [if_pos ⟨by simpa using hlen3, by simpa using hfold2⟩]
      have ht4 : (43 :: (tok ++ r)).take (List.length ([43] : List Nat) + 3) =
          [43] ++ tok := by
        simp only [List.length_cons, List.length_nil, List.take_succ_cons]
        rw [htake3]
        rfl
      have hd4 : (43 :: (tok ++ r)).drop (List.length ([43] : List Nat) + 3) = r := by
        simp only [List.length_cons, List.length_nil, List.drop_succ_cons]
        exact hdrop3
      simp only [List.length_cons, List.length_nil] at ht4 hd4
      rw [show (1:Nat) + 3 = 4 from rfl] at ht4 hd4
      rw [show (([43] : List Nat).length + 3) = 4 from rfl]
      rw [ht4, hd4, htokr]

theorem numRT {ns : List Nat} (h : NumOK ns) {r : List Nat} (hr : InnerTail r)
    (f d : Nat) (hd : d + 1 ≤ maxDepth) :
    parseRun (f + 1) (.val (ns ++ r) d) = some (.ok (.vNumber ns, r)) := by
  have hdneg : ¬ d + 1 > maxDepth := by omega
  rcases h with ⟨hne, hall, h45, h43⟩ | ⟨sg, tok, hsg, hns, htok3, hfold⟩
  · cases ns with
    | nil => exact absurd rfl hne
    | cons c0 ns1 =>
      have hc0 : isNumChar c0 = true := by
        have := List.all_eq_true.mp hall c0 (by simp)
        simpa using this
      have hf := isNumChar_facts hc0
      rw [List.cons_append, parseRun]
      rw [if_neg hdneg, if_neg hf.1, if_neg hf.2.1, if_neg hf.2.2.1,
        if_neg hf.2.2.2.1, if_neg hf.2.2.2.2.1, if_neg hf.2.2.2.2.2.1,
        ← List.cons_append, parseRawNumber_run hne hall h45 h43 hr]
  · subst hns
    obtain ⟨a, b, c, htk, hab⟩ := eqFold_letters hfold
    have hpn := parseRawNumber_infnan hsg htok3 hfold r
    rcases hsg with h0 | h0 | h0 <;> subst h0
    · rw [List.nil_append] at hpn ⊢
      subst htk
      by_cases ha110 : a = 110
      · subst ha110
        have hb : b = 97 ∨ b = 65 := by
          rcases hab with ⟨h1, _⟩ | ⟨_, h2⟩
          · rcases h1 with h1 | h1 <;> omega
          · exact h2
        have hnan : eqFold [110, b, c] nanLit = true := by
          rcases hfold with hinf | hnan
          · exfalso
            rw [infLit] at hinf
            obtain ⟨x, y, z, hxyz, hx, _, _⟩ := eqFold_three hinf
            simp only [List.cons.injEq, and_true] at hxyz
            rw [show asciiLower 105 = 105 from rfl] at hx
            rcases asciiLower_inv (hxyz.1 ▸ hx) with h1 | h1 <;> omega
          · exact hnan
        rw [List.cons_append, parseRun]
        rw [if_neg hdneg, if_neg (by omega), if_neg (by omega), if_neg (by omega),
          if_neg (by omega), if_neg (by omega), if_pos rfl]
        have hnull : ¬ (110 :: (([b, c] : List Nat) ++ r)).take 4 = nullLit := by
          intro heq
          rw [nullLit] at heq
          simp only [List.take_succ_cons, List.cons_append, List.cons.injEq,
            true_and] at heq
          rcases hb with hb | hb <;> omega
        rw [if_neg hnull]
        have hlen : 3 ≤ (110 :: (([b, c] : List Nat) ++ r)).length := by
          simp only [List.length_cons, List.length_append]
          omega
        have htake : (110 :: (([b, c] : List Nat) ++ r)).take 3 = [110, b, c] := by
          simp [List.take_succ_cons]
        rw [if_pos ⟨hlen, by rw [htake]; exact hnan⟩]
        have hdrop : (110 :: (([b, c] : List Nat) ++ r)).drop 3 = r := by
          simp [List.drop_succ_cons]
        rw [htake, hdrop]
      · have hava : a = 105 ∨ a = 73 ∨ a = 78 := by
          rcases hab with ⟨hx, _⟩ | ⟨hx, _⟩ <;> rcases hx with hx | hx <;> omega
        rw [List.cons_append, parseRun]
        rw [if_neg hdneg, if_neg (by omega), if_neg (by omega), if_neg (by omega),
          if_neg (by omega), if_neg (by omega), if_neg (by omega),
          ← List.cons_append, hpn]
    · subst htk
      rw [show (([45] ++ [a, b, c]) ++ r : List Nat) = 45 :: ([a, b, c] ++ r) from by
        simp] at hpn ⊢
      rw [parseRun]
      rw [if_neg hdneg, if_neg (by omega), if_neg (by omega), if_neg (by omega),
        if_neg (by omega), if_neg (by omega), if_neg (by omega), hpn]
    · subst htk
      rw [show (([43] ++ [a, b, c]) ++ r : List Nat) = 43 :: ([a, b, c] ++ r) from by
        simp] at hpn ⊢
      rw [parseRun]
      rw [if_neg hdneg, if_neg (by omega), if_neg (by omega), if_neg (by omega),
        if_neg (by omega), if_neg (by omega), if_neg (by omega), hpn]

theorem skipWS_marshal {v : Value} (hv : GoodVal v) (X : List Nat) :
    skipWS (marshalValue v ++ X) = marshalValue v ++ X := by
  obtain ⟨c, rest, hm, hws, _⟩ := marshalValue_head hv
  rw [hm, List.cons_append, skipWS_not_ws hws]

theorem marshal_head_ne93 {v : Value} (hv : GoodVal v) (X : List Nat) :
    ∃ c Y, marshalValue v ++ X = c :: Y ∧ isWS c = false ∧ c ≠ 93 := by
  obtain ⟨c, rest, hm, hws, h93⟩ := marshalValue_head hv
  exact ⟨c, rest ++ X, by rw [hm, List.cons_append], hws, h93⟩


theorem parseRun_marshal : ∀ f : Nat,
    (∀ (v : Value) (r : List Nat) (d : Nat), GoodVal v → InnerTail r →
      d + depthOf v ≤ maxDepth → 3 * (marshalValue v ++ r).length + 1 ≤ f →
      parseRun f (.val (marshalValue v ++ r) d) = some (.ok (v, r))) ∧
    (∀ (kvs : KVList) (r : List Nat) (d : Nat), GoodKVs kvs →
      d + depthOfKVs kvs ≤ maxDepth →
      3 * (marshalKVs false kvs ++ r).length + 3 ≤ f →
      parseRun f (.obj (marshalKVs false kvs ++ r) d) =
        some (.ok (.vObject kvs false, r))) ∧
    (∀ (kvs acc : KVList) (r : List Nat) (d : Nat), GoodKVs kvs →
      kvs ≠ .nil → d + depthOfKVs kvs ≤ maxDepth →
      3 * (marshalKVs false kvs ++ r).length + 2 ≤ f →
      parseRun f (.objLoop acc (marshalKVs false kvs ++ r) d) =
        some (.ok (.vObject (KVList.appendAll acc kvs) false, r))) ∧
    (∀ (a : VList) (r : List Nat) (d : Nat), GoodVL a →
      d + depthOfVL a ≤ maxDepth →
      3 * (marshalVList a ++ r).length + 3 ≤ f →
      parseRun f (.arr (marshalVList a ++ r) d) = some (.ok (.vArray a, r))) ∧
    (∀ (a acc : VList) (r : List Nat) (d : Nat), GoodVL a → a ≠ .nil →
      d + depthOfVL a ≤ maxDepth →
      3 * (marshalVList a ++ r).length + 2 ≤ f →
      parseRun f (.arrLoop acc (marshalVList a ++ r) d) =
        some (.ok (.vArray (VList.appendAll acc a), r))) := by
  intro f
  induction f with
  | zero =>
    refine ⟨?_, ?_, ?_, ?_, ?_⟩ <;> intros <;> omega
  | succ f ih =>
    refine ⟨?_, ?_, ?_, ?_, ?_⟩
    · intro v r d hg hr hdep hfuel
      cases hg with
      | null =>
        simp only [depthOf, maxDepth] at hdep
        rw [show marshalValue .vNull ++ r = 110 :: ([117, 108, 108] ++ r) from by
          simp [marshalValue]]
        rw [parseRun]
        rw [if_neg (show ¬ d + 1 > maxDepth from by simp only [maxDepth]; omega),
          if_neg (by omega), if_neg (by omega), if_neg (by omega),
          if_neg (by omega), if_neg (by omega), if_pos rfl,
          if_pos (show (110 :: (([117, 108, 108] : List Nat) ++ r)).take 4 = nullLit from by
            simp [nullLit])]
        simp
      | isTrue =>
        simp only [depthOf, maxDepth] at hdep
        rw [show marshalValue .vTrue ++ r = 116 :: ([114, 117, 101] ++ r) from by
          simp [marshalValue]]
        rw [parseRun]
        rw [if_neg (show ¬ d + 1 > maxDepth from by simp only [maxDepth]; omega),
          if_neg (by omega), if_neg (by omega), if_neg (by omega), if_pos rfl,
          if_pos (show (116 :: (([114, 117, 101] : List Nat) ++ r)).take 4 = trueLit from by
            simp [trueLit])]
        simp
      | isFalse =>
        simp only [depthOf, maxDepth] at hdep
        rw [show marshalValue .vFalse ++ r = 102 :: ([97, 108, 115, 101] ++ r) from by
          simp [marshalValue]]
        rw [parseRun]
        rw [if_neg (show ¬ d + 1 > maxDepth from by simp only [maxDepth]; omega),
          if_neg (by omega), if_neg (by omega), if_neg (by omega),
          if_neg (by omega), if_pos rfl,
          if_pos (show (102 :: (([97, 108, 115, 101] : List Nat) ++ r)).take 5 = falseLit from by
            simp [falseLit])]
        simp
      | num ns h =>
        simp only [depthOf, maxDepth] at hdep
        rw [show marshalValue (.vNumber ns) = ns from by rw [marshalValue]]
        exact numRT h hr f d (by simp only [maxDepth]; omega)
      | raw ss h =>
        simp only [depthOf, maxDepth] at hdep
        rw [show marshalValue (.vRawString ss) ++ r = 34 :: (ss ++ 34 :: r) from by
          simp [marshalValue]]
        rw [parseRun]
        rw [if_neg (show ¬ d + 1 > maxDepth from by simp only [maxDepth]; omega),
          if_neg (by omega), if_neg (by omega), if_pos rfl, h r]
      | arr a ha =>
        simp only [depthOf, maxDepth] at hdep
        have hlen : (marshalValue (.vArray a) ++ r).length =
            (marshalVList a ++ r).length + 1 := by
          simp [marshalValue]
        rw [show marshalValue (.vArray a) ++ r = 91 :: (marshalVList a ++ r) from by
          simp [marshalValue]]
        rw [parseRun]
        rw [if_neg (show ¬ d + 1 > maxDepth from by simp only [maxDepth]; omega),
          if_neg (by omega), if_pos rfl,
          ih.2.2.2.1 a r (d + 1) ha (by simp only [maxDepth]; omega)
            (by rw [hlen] at hfuel; omega)]
      | obj kvs hkvs =>
        simp only [depthOf, maxDepth] at hdep
        have hlen : (marshalValue (.vObject kvs false) ++ r).length =
            (marshalKVs false kvs ++ r).length + 1 := by
          simp [marshalValue]
        rw [show marshalValue (.vObject kvs false) ++ r =
            123 :: (marshalKVs false kvs ++ r) from by simp [marshalValue]]
        rw [parseRun]
        rw [if_neg (show ¬ d + 1 > maxDepth from by simp only [maxDepth]; omega),
          if_pos rfl,
          ih.2.1 kvs r (d + 1) hkvs (by simp only [maxDepth]; omega)
            (by rw [hlen] at hfuel; omega)]
    · intro kvs r d hg hdep hfuel
      cases hg with
      | nil =>
        rw [show marshalKVs false .nil ++ r = 125 :: r from by simp [marshalKVs]]
        rw [parseRun]
        rw [skipWS_not_ws (by decide) r]
        try dsimp only
        rw [if_pos rfl]
      | cons k v t hk hv ht =>
        have hne : KVList.cons k v t ≠ .nil := fun h => KVList.noConfusion h
        have hshape : ∃ X, marshalKVs false (.cons k v t) ++ r = 34 :: X := by
          cases t with
          | nil =>
            exact ⟨k ++ 34 :: 58 :: (marshalValue v ++ 125 :: r),
              by simp [marshalKVs, marshalKey]⟩
          | cons k2 v2 t2 =>
            exact ⟨k ++ 34 :: 58 :: (marshalValue v ++
                44 :: (marshalKVs false (.cons k2 v2 t2) ++ r)),
              by simp [marshalKVs, marshalKey]⟩
        obtain ⟨X, hX⟩ := hshape
        rw [hX, parseRun]
        rw [skipWS_not_ws (by decide) X]
        try dsimp only
        rw [if_neg (by omega), ← hX,
          ih.2.2.1 (.cons k v t) .nil r d (.cons k v t hk hv ht) hne hdep
            (by omega),
          KVList_appendAll_nil]
    · intro kvs acc r d hg hne hdep hfuel
      cases hg with
      | nil => exact absurd rfl hne
      | cons k v t hk hv ht =>
        simp only [depthOfKVs] at hdep
        obtain ⟨TAIL, hX, htail⟩ :
            ∃ TAIL, marshalKVs false (.cons k v t) ++ r =
              34 :: (k ++ 34 :: (58 :: (marshalValue v ++ TAIL))) ∧
              ((t = .nil ∧ TAIL = 125 :: r) ∨
                (t ≠ .nil ∧ TAIL = 44 :: (marshalKVs false t ++ r))) := by
          cases t with
          | nil =>
            exact ⟨125 :: r, by simp [marshalKVs, marshalKey], Or.inl ⟨rfl, rfl⟩⟩
          | cons k2 v2 t2 =>
            exact ⟨44 :: (marshalKVs false (.cons k2 v2 t2) ++ r),
              by simp [marshalKVs, marshalKey], Or.inr ⟨fun h => KVList.noConfusion h, rfl⟩⟩
        have hlen : (marshalKVs false (.cons k v t) ++ r).length =
            k.length + 3 + (marshalValue v ++ TAIL).length := by
          have h2 := congrArg List.length hX
          simp only [List.length_append, List.length_cons] at h2 ⊢
          omega
        rw [hX, parseRun]
        rw [skipWS_not_ws (by decide)]
        try dsimp only
        rw [if_neg (show ¬ ((34:Nat) ≠ 34) from by simp), hk (58 :: (marshalValue v ++ TAIL))]
        try dsimp only
        rw [skipWS_not_ws (by decide)]
        try dsimp only
        rw [if_neg (show ¬ ((58:Nat) ≠ 58) from by simp), skipWS_marshal hv TAIL,
          ih.1 v TAIL d hv
            (by rcases htail with ⟨h1, h2⟩ | ⟨h1, h2⟩ <;> subst h2
                · exact Or.inr (Or.inr (Or.inr ⟨r, rfl⟩))
                · exact Or.inr (Or.inl ⟨_, rfl⟩))
            (by omega) (by rw [hlen] at hfuel; omega)]
        try dsimp only
        rcases htail with ⟨ht0, hT⟩ | ⟨htne, hT⟩ <;> subst hT
        · subst ht0
          rw [skipWS_not_ws (by decide) r]
          try dsimp only
          rw [if_neg (by omega), if_pos rfl]
          rfl
        · rw [skipWS_not_ws (by decide)]
          try dsimp only
          rw [if_pos rfl,
            ih.2.2.1 t (acc.snoc k v) r d ht htne (by omega)
              (by
                have hmv : 1 ≤ (marshalValue v).length := by
                  obtain ⟨c, rest, hm, h1, h2⟩ := marshalValue_head hv
                  rw [hm]
                  simp
                rw [hlen] at hfuel
                simp only [List.length_append, List.length_cons] at hfuel ⊢
                omega)]
          rfl
    · intro a r d hg hdep hfuel
      cases hg with
      | nil =>
        rw [show marshalVList .nil ++ r = 93 :: r from by simp [marshalVList]]
        rw [parseRun]
        rw [skipWS_not_ws (by decide) r]
        try dsimp only
        rw [if_pos rfl]
      | cons v t hv ht =>
        have hne : VList.cons v t ≠ .nil := fun h => VList.noConfusion h
        obtain ⟨c, Y, hcY, hws, h93⟩ :
            ∃ c Y, marshalVList (.cons v t) ++ r = c :: Y ∧ isWS c = false ∧ c ≠ 93 := by
          have hsh : ∃ X, marshalVList (.cons v t) ++ r = marshalValue v ++ X := by
            cases t with
            | nil => exact ⟨93 :: r, by simp [marshalVList]⟩
            | cons v2 t2 =>
              exact ⟨44 :: (marshalVList (.cons v2 t2) ++ r), by simp [marshalVList]⟩
          obtain ⟨X, hX⟩ := hsh
          obtain ⟨c, Y, h1, h2, h3⟩ := marshal_head_ne93 hv X
          exact ⟨c, Y, by rw [hX, h1], h2, h3⟩
        rw [hcY, parseRun]
        rw [skipWS_not_ws hws]
        try dsimp only
        rw [if_neg h93, ← hcY,
          ih.2.2.2.2 (.cons v t) .nil r d (.cons v t hv ht) hne hdep (by omega),
          VList_appendAll_nil]
    · intro a acc r d hg hne hdep hfuel
      cases hg with
      | nil => exact absurd rfl hne
      | cons v t hv ht =>
        simp only [depthOfVL] at hdep
        obtain ⟨TAIL, hX, htail⟩ :
            ∃ TAIL, marshalVList (.cons v t) ++ r = marshalValue v ++ TAIL ∧
              ((t = .nil ∧ TAIL = 93 :: r) ∨
                (t ≠ .nil ∧ TAIL = 44 :: (marshalVList t ++ r))) := by
          cases t with
          | nil => exact ⟨93 :: r, by simp [marshalVList], Or.inl ⟨rfl, rfl⟩⟩
          | cons v2 t2 =>
            exact ⟨44 :: (marshalVList (.cons v2 t2) ++ r),
              by simp [marshalVList], Or.inr ⟨fun h => VList.noConfusion h, rfl⟩⟩
        have hlen : (marshalVList (.cons v t) ++ r).length =
            (marshalValue v ++ TAIL).length := by
          rw [hX]
        rw [hX, parseRun]
        rw [skipWS_marshal hv TAIL,
          ih.1 v TAIL d hv
            (by rcases htail with ⟨h1, h2⟩ | ⟨h1, h2⟩ <;> subst h2
                · exact Or.inr (Or.inr (Or.inl ⟨r, rfl⟩))
                · exact Or.inr (Or.inl ⟨_, rfl⟩))
            (by omega) (by rw [hlen] at hfuel; omega)]
        try dsimp only
        rcases htail with ⟨ht0, hT⟩ | ⟨htne, hT⟩ <;> subst hT
        · subst ht0
          rw [skipWS_not_ws (by decide) r]
          try dsimp only
          rw [if_neg (by omega), if_pos rfl]
          rfl
        · rw [skipWS_not_ws (by decide)]
          try dsimp only
          rw [if_pos rfl,
            ih.2.2.2.2 t (acc.snoc v) r d ht htne (by omega)
              (by
                have hmv : 1 ≤ (marshalValue v).length := by
                  obtain ⟨c2, rest, hm, h1, h2⟩ := marshalValue_head hv
                  rw [hm]
                  simp
                rw [hlen] at hfuel
                simp only [List.length_append, List.length_cons] at hfuel ⊢
                omega)]
          rfl

theorem takeWhile_pref_one {s pre : List Nat} {p : Nat → Bool}
    (hpre : pre = s.takeWhile p) (h1 : pre.length = 1) : pre = s.take 1 := by
  obtain ⟨u, hu⟩ := List.takeWhile_prefix (l := s) p
  rw [← hpre] at hu
  rw [← hu, List.take_append_of_le_length (by omega), ← h1, List.take_length]

theorem parseRawNumber_ok_char {s ns t : List Nat} (hs : s ≠ [])
    (h : parseRawNumber s = .ok (ns, t)) :
    NumOK ns ∨ (t = [] ∧ ns ≠ [] ∧ ns.all isNumChar = true) := by
  rw [parseRawNumber] at h
  cases hpost : s.dropWhile isNumChar with
  | nil =>
    rw [hpost] at h
    simp only [Except.ok.injEq, Prod.mk.injEq] at h
    obtain ⟨hns, ht⟩ := h
    refine Or.inr ⟨ht.symm, by rw [← hns]; exact hs, ?_⟩
    rw [← hns]
    exact List.all_eq_true.mpr (List.dropWhile_eq_nil_iff.mp hpost)
  | cons c2 t2 =>
    rw [hpost] at h
    by_cases hcond : (s.takeWhile isNumChar).length = 0 ∨
        ((s.takeWhile isNumChar).length = 1 ∧ (s.take 1 = [45] ∨ s.take 1 = [43]))
    · rw [if_pos hcond] at h
      by_cases hin : 3 ≤ (c2 :: t2).length ∧
          (eqFold ((c2 :: t2).take 3) infLit = true ∨
            eqFold ((c2 :: t2).take 3) nanLit = true)
      · rw [if_pos hin] at h
        simp only [Except.ok.injEq, Prod.mk.injEq] at h
        obtain ⟨hns, ht⟩ := h
        left
        right
        refine ⟨s.takeWhile isNumChar, (c2 :: t2).take 3, ?_, ?_, ?_, hin.2⟩
        · rcases hcond with h0 | ⟨h1, hsg⟩
          · exact Or.inl (List.length_eq_zero.mp h0)
          · have hpre := takeWhile_pref_one rfl h1
            rcases hsg with hsg | hsg
            · exact Or.inr (Or.inl (by rw [hpre, hsg]))
            · exact Or.inr (Or.inr (by rw [hpre, hsg]))
        · rw [← hns]
          have hsplit : s.takeWhile isNumChar ++ c2 :: t2 = s := by
            rw [← hpost]
            exact List.takeWhile_append_dropWhile isNumChar s
          nth_rewrite 2 [← hsplit]
          rw [List.take_append 3]
        · have : (c2 :: t2).length ≥ 3 := hin.1
          rw [List.length_take]
          omega
      · rw [if_neg hin] at h
        cases h
    · rw [if_neg hcond] at h
      simp only [Except.ok.injEq, Prod.mk.injEq] at h
      obtain ⟨hns, ht⟩ := h
      push_neg at hcond
      left
      left
      refine ⟨?_, ?_, ?_, ?_⟩
      · rw [← hns]
        intro hemp
        exact hcond.1 (by rw [hemp]; rfl)
      · rw [← hns]
        exact List.all_eq_true.mpr (fun x hx => by
          simpa using List.mem_takeWhile_imp hx)
      · intro h45
        have h1 : (s.takeWhile isNumChar).length = 1 := by rw [hns, h45]; rfl
        have hpre := takeWhile_pref_one rfl h1
        rw [hns] at hpre
        exact (hcond.2 h1).1 (by rw [← hpre, h45])
      · intro h43
        have h1 : (s.takeWhile isNumChar).length = 1 := by rw [hns, h43]; rfl
        have hpre := takeWhile_pref_one rfl h1
        rw [hns] at hpre
        exact (hcond.2 h1).2 (by rw [← hpre, h43])

theorem goodValT_of_tail_ne {v : Value} {t : List Nat} (hg : GoodValT v t)
    (ht : t ≠ []) : GoodVal v := by
  rcases hg with h | ⟨h0, _⟩
  · exact h
  · exact absurd h0 ht

theorem parseRun_extract : ∀ f : Nat,
    (∀ s d v t, parseRun f (.val s d) = some (.ok (v, t)) →
      GoodValT v t ∧ d + depthOf v ≤ maxDepth) ∧
    (∀ s d v t, d ≤ maxDepth → parseRun f (.obj s d) = some (.ok (v, t)) →
      ∃ kvs, v = .vObject kvs false ∧ GoodKVs kvs ∧ d + depthOfKVs kvs ≤ maxDepth) ∧
    (∀ s acc d v t, GoodKVs acc → d + depthOfKVs acc ≤ maxDepth →
      parseRun f (.objLoop acc s d) = some (.ok (v, t)) →
      ∃ kvs, v = .vObject kvs false ∧ GoodKVs kvs ∧ d + depthOfKVs kvs ≤ maxDepth) ∧
    (∀ s d v t, d ≤ maxDepth → parseRun f (.arr s d) = some (.ok (v, t)) →
      ∃ a, v = .vArray a ∧ GoodVL a ∧ d + depthOfVL a ≤ maxDepth) ∧
    (∀ s acc d v t, GoodVL acc → d + depthOfVL acc ≤ maxDepth →
      parseRun f (.arrLoop acc s d) = some (.ok (v, t)) →
      ∃ a, v = .vArray a ∧ GoodVL a ∧ d + depthOfVL a ≤ maxDepth) := by
  intro f
  induction f with
  | zero =>
    refine ⟨?_, ?_, ?_, ?_, ?_⟩
    · intro s d v t h
      rw [parseRun] at h
      exact Option.noConfusion h
    · intro s d v t _ h
      rw [parseRun] at h
      exact Option.noConfusion h
    · intro s acc d v t _ _ h
      rw [parseRun] at h
      exact Option.noConfusion h
    · intro s d v t _ h
      rw [parseRun] at h
      exact Option.noConfusion h
    · intro s acc d v t _ _ h
      rw [parseRun] at h
      exact Option.noConfusion h
  | succ f ih =>
    refine ⟨?_, ?_, ?_, ?_, ?_⟩
    · intro s d v t h
      cases s with
      | nil =>
        rw [parseRun] at h
        simp at h
      | cons c s1 =>
        rw [parseRun] at h
        by_cases hdp : d + 1 > maxDepth
        · rw [if_pos hdp] at h
          simp at h
        · rw [if_neg hdp] at h
          by_cases h123 : c = 123
          · rw [if_pos h123] at h
            cases hro : parseRun f (.obj s1 (d + 1)) with
            | none =>
              rw [hro] at h
              try dsimp only at h
              simp at h
            | some res =>
              rw [hro] at h
              try dsimp only at h
              cases res with
              | error et =>
                obtain ⟨e, tl⟩ := et
                simp at h
              | ok vt =>
                obtain ⟨v2, t2⟩ := vt
                simp only [Option.some.injEq, Except.ok.injEq, Prod.mk.injEq] at h
                obtain ⟨hv2, ht2⟩ := h
                subst hv2
                subst ht2
                obtain ⟨kvs, hvv, hg, hdd⟩ := ih.2.1 s1 (d + 1) v2 t2 (by omega) hro
                subst hvv
                refine ⟨Or.inl (.obj kvs hg), ?_⟩
                simp only [depthOf]
                omega
          · rw [if_neg h123] at h
            by_cases h91 : c = 91
            · rw [if_pos h91] at h
              cases hro : parseRun f (.arr s1 (d + 1)) with
              | none =>
                rw [hro] at h
                try dsimp only at h
                simp at h
              | some res =>
                rw [hro] at h
                try dsimp only at h
                cases res with
                | error et =>
                  obtain ⟨e, tl⟩ := et
                  simp at h
                | ok vt =>
                  obtain ⟨v2, t2⟩ := vt
                  simp only [Option.some.injEq, Except.ok.injEq, Prod.mk.injEq] at h
                  obtain ⟨hv2, ht2⟩ := h
                  subst hv2
                  subst ht2
                  obtain ⟨a, hvv, hg, hdd⟩ := ih.2.2.2.1 s1 (d + 1) v2 t2 (by omega) hro
                  subst hvv
                  refine ⟨Or.inl (.arr a hg), ?_⟩
                  simp only [depthOf]
                  omega
            · rw [if_neg h91] at h
              by_cases h34 : c = 34
              · rw [if_pos h34] at h
                cases hps : parseRawString s1 with
                | error e =>
                  rw [hps] at h
                  try dsimp only at h
                  simp at h
                | ok ct =>
                  obtain ⟨ss, tl⟩ := ct
                  rw [hps] at h
                  try dsimp only at h
                  simp only [Option.some.injEq, Except.ok.injEq, Prod.mk.injEq] at h
                  obtain ⟨hv2, ht2⟩ := h
                  subst hv2
                  subst ht2
                  refine ⟨Or.inl (.raw ss (fun r => parseRawString_roundtrip hps r)), ?_⟩
                  simp only [depthOf]
                  omega
              · rw [if_neg h34] at h
                by_cases h116 : c = 116
                · rw [if_pos h116] at h
                  by_cases htr : (c :: s1).take 4 = trueLit
                  · rw [if_pos htr] at h
                    simp only [Option.some.injEq, Except.ok.injEq, Prod.mk.injEq] at h
                    obtain ⟨hv2, ht2⟩ := h
                    subst hv2
                    subst ht2
                    refine ⟨Or.inl .isTrue, ?_⟩
                    simp only [depthOf]
                    omega
                  · rw [if_neg htr] at h
                    simp at h
                · rw [if_neg h116] at h
                  by_cases h102 : c = 102
                  · rw [if_pos h102] at h
                    by_cases hfa : (c :: s1).take 5 = falseLit
                    · rw [if_pos hfa] at h
                      simp only [Option.some.injEq, Except.ok.injEq, Prod.mk.injEq] at h
                      obtain ⟨hv2, ht2⟩ := h
                      subst hv2
                      subst ht2
                      refine ⟨Or.inl .isFalse, ?_⟩
                      simp only [depthOf]
                      omega
                    · rw [if_neg hfa] at h
                      simp at h
                  · rw [if_neg h102] at h
                    by_cases h110 : c = 110
                    · rw [if_pos h110] at h
                      by_cases hnl : (c :: s1).take 4 = nullLit
                      · rw [if_pos hnl] at h
                        simp only [Option.some.injEq, Except.ok.injEq, Prod.mk.injEq] at h
                        obtain ⟨hv2, ht2⟩ := h
                        subst hv2
                        subst ht2
                        refine ⟨Or.inl .null, ?_⟩
                        simp only [depthOf]
                        omega
                      · rw [if_neg hnl] at h
                        by_cases hnan : 3 ≤ (c :: s1).length ∧
                            eqFold ((c :: s1).take 3) nanLit = true
                        · rw [if_pos hnan] at h
                          simp only [Option.some.injEq, Except.ok.injEq, Prod.mk.injEq] at h
                          obtain ⟨hv2, ht2⟩ := h
                          subst hv2
                          subst ht2
                          refine ⟨Or.inl (.num _ (Or.inr ⟨[], (c :: s1).take 3,
                            Or.inl rfl, by simp, ?_, Or.inr hnan.2⟩)), ?_⟩
                          · rw [List.length_take]
                            have := hnan.1
                            omega
                          · simp only [depthOf]
                            omega
                        · rw [if_neg hnan] at h
                          simp at h
                    · rw [if_neg h110] at h
                      cases hpn : parseRawNumber (c :: s1) with
                      | error e =>
                        rw [hpn] at h
                        try dsimp only at h
                        simp at h
                      | ok nt =>
                        obtain ⟨ns, tl⟩ := nt
                        rw [hpn] at h
                        try dsimp only at h
                        simp only [Option.some.injEq, Except.ok.injEq, Prod.mk.injEq] at h
                        obtain ⟨hv2, ht2⟩ := h
                        subst hv2
                        subst ht2
                        rcases parseRawNumber_ok_char (List.cons_ne_nil c s1) hpn with
                          hnum | ⟨ht0, hne, hall⟩
                        · refine ⟨Or.inl (.num ns hnum), ?_⟩
                          simp only [depthOf]
                          omega
                        · refine ⟨Or.inr ⟨ht0, ns, rfl, hne, hall⟩, ?_⟩
                          simp only [depthOf]
                          omega
    · intro s d v t hdle h
      rw [parseRun] at h
      cases hsw : skipWS s with
      | nil =>
        rw [hsw] at h
        try dsimp only at h
        simp at h
      | cons c s2 =>
        rw [hsw] at h
        try dsimp only at h
        by_cases hc : c = 125
        · rw [if_pos hc] at h
          simp only [Option.some.injEq, Except.ok.injEq, Prod.mk.injEq] at h
          obtain ⟨hv2, ht2⟩ := h
          subst hv2
          subst ht2
          exact ⟨.nil, rfl, .nil, by simp only [depthOfKVs]; omega⟩
        · rw [if_neg hc] at h
          exact ih.2.2.1 (c :: s2) .nil d v t .nil (by simp only [depthOfKVs]; omega) h
    · intro s acc d v t hgacc hdacc h
      rw [parseRun] at h
      cases hsw : skipWS s with
      | nil =>
        rw [hsw] at h
        try dsimp only at h
        simp at h
      | cons c s2 =>
        rw [hsw] at h
        try dsimp only at h
        by_cases hc : c ≠ 34
        · rw [if_pos hc] at h
          simp at h
        · rw [if_neg hc] at h
          cases hkey : parseRawKey s2 with
          | error e =>
            rw [hkey] at h
            try dsimp only at h
            simp at h
          | ok kt =>
            obtain ⟨k, s3⟩ := kt
            rw [hkey] at h
            try dsimp only at h
            cases hsw3 : skipWS s3 with
            | nil =>
              rw [hsw3] at h
              try dsimp only at h
              simp at h
            | cons c2 s5 =>
              rw [hsw3] at h
              try dsimp only at h
              by_cases hc2 : c2 ≠ 58
              · rw [if_pos hc2] at h
                simp at h
              · rw [if_neg hc2] at h
                cases hval : parseRun f (.val (skipWS s5) d) with
                | none =>
                  rw [hval] at h
                  try dsimp only at h
                  simp at h
                | some res =>
                  rw [hval] at h
                  try dsimp only at h
                  cases res with
                  | error et =>
                    obtain ⟨e, tl⟩ := et
                    simp at h
                  | ok vt =>
                    obtain ⟨v2, s7⟩ := vt
                    try dsimp only at h
                    obtain ⟨hgt, hdv⟩ := ih.1 (skipWS s5) d v2 s7 hval
                    cases hsw7 : skipWS s7 with
                    | nil =>
                      rw [hsw7] at h
                      try dsimp only at h
                      simp at h
                    | cons c3 s9 =>
                      rw [hsw7] at h
                      try dsimp only at h
                      have hs7ne : s7 ≠ [] := by
                        intro h0
                        rw [h0] at hsw7
                        simp [skipWS] at hsw7
                      have hgv2 : GoodVal v2 := goodValT_of_tail_ne hgt hs7ne
                      have hkok : KeyOK k := fun r => parseRawKey_roundtrip hkey r
                      by_cases hc3 : c3 = 44
                      · rw [if_pos hc3] at h
                        refine ih.2.2.1 s9 (acc.snoc k v2) d v t
                          (GoodKVs_snoc acc hgacc k v2 hkok hgv2) ?_ h
                        rw [depthOfKVs_snoc]
                        omega
                      · rw [if_neg hc3] at h
                        by_cases hc3b : c3 = 125
                        · rw [if_pos hc3b] at h
                          simp only [Option.some.injEq, Except.ok.injEq,
                            Prod.mk.injEq] at h
                          obtain ⟨hv2, ht2⟩ := h
                          subst hv2
                          subst ht2
                          refine ⟨acc.snoc k v2, rfl,
                            GoodKVs_snoc acc hgacc k v2 hkok hgv2, ?_⟩
                          rw [depthOfKVs_snoc]
                          omega
                        · rw [if_neg hc3b] at h
                          simp at h
    · intro s d v t hdle h
      rw [parseRun] at h
      cases hsw : skipWS s with
      | nil =>
        rw [hsw] at h
        try dsimp only at h
        simp at h
      | cons c s2 =>
        rw [hsw] at h
        try dsimp only at h
        by_cases hc : c = 93
        · rw [if_pos hc] at h
          simp only [Option.some.injEq, Except.ok.injEq, Prod.mk.injEq] at h
          obtain ⟨hv2, ht2⟩ := h
          subst hv2
          subst ht2
          exact ⟨.nil, rfl, .nil, by simp only [depthOfVL]; omega⟩
        · rw [if_neg hc] at h
          exact ih.2.2.2.2 (c :: s2) .nil d v t .nil (by simp only [depthOfVL]; omega) h
    · intro s acc d v t hgacc hdacc h
      rw [parseRun] at h
      cases hval : parseRun f (.val (skipWS s) d) with
      | none =>
        rw [hval] at h
        try dsimp only at h
        simp at h
      | some res =>
        rw [hval] at h
        try dsimp only at h
        cases res with
        | error et =>
          obtain ⟨e, tl⟩ := et
          simp at h
        | ok vt =>
          obtain ⟨v2, s2⟩ := vt
          try dsimp only at h
          obtain ⟨hgt, hdv⟩ := ih.1 (skipWS s) d v2 s2 hval
          cases hsw2 : skipWS s2 with
          | nil =>
            rw [hsw2] at h
            try dsimp only at h
            simp at h
          | cons c s4 =>
            rw [hsw2] at h
            try dsimp only at h
            have hs2ne : s2 ≠ [] := by
              intro h0
              rw [h0] at hsw2
              simp [skipWS] at hsw2
            have hgv2 : GoodVal v2 := goodValT_of_tail_ne hgt hs2ne
            by_cases hc : c = 44
            · rw [if_pos hc] at h
              refine ih.2.2.2.2 s4 (acc.snoc v2) d v t
                (GoodVL_snoc acc hgacc v2 hgv2) ?_ h
              rw [depthOfVL_snoc]
              omega
            · rw [if_neg hc] at h
              by_cases hc2 : c = 93
              · rw [if_pos hc2] at h
                simp only [Option.some.injEq, Except.ok.injEq, Prod.mk.injEq] at h
                obtain ⟨hv2, ht2⟩ := h
                subst hv2
                subst ht2
                refine ⟨acc.snoc v2, rfl, GoodVL_snoc acc hgacc v2 hgv2, ?_⟩
                rw [depthOfVL_snoc]
                omega
              · rw [if_neg hc2] at h
                simp at h

/-- Claim C2: a value surviving a successful parse re-parses from its own
serialization to the identical value.  Since the value is identical,
serializing the re-parsed value is byte-identical to the first
serialization, and every number node carries its raw source text
verbatim through the full round trip. -/
theorem c2_marshal_roundtrip (s : List Nat) (v : Value)
    (h : parserParse s = .ok v) : parserParse (marshalValue v) = .ok v := by
  rw [parserParse] at h
  cases hrun : parseRun (parseFuel (skipWS s)) (.val (skipWS s) 0) with
  | none =>
    rw [hrun] at h
    simp at h
  | some res =>
    rw [hrun] at h
    try dsimp only at h
    cases res with
    | error et =>
      obtain ⟨e, tl⟩ := et
      simp at h
    | ok vt =>
      obtain ⟨v2, tl⟩ := vt
      try dsimp only at h
      simp only [Except.ok.injEq] at h
      subst h
      obtain ⟨hgt, hdep⟩ := (parseRun_extract _).1 (skipWS s) 0 v2 tl hrun
      rcases hgt with hgv | ⟨ht0, ns, hvns, hne, hall⟩
      · rw [parserParse]
        have hsw : skipWS (marshalValue v2) = marshalValue v2 := by
          obtain ⟨c, rest, hm, hws, _⟩ := marshalValue_head hgv
          rw [hm, skipWS_not_ws hws]
        rw [hsw]
        have hrt := (parseRun_marshal (parseFuel (marshalValue v2))).1 v2 [] 0 hgv
          (Or.inl rfl) (by omega)
          (by rw [parseFuel, List.append_nil]; omega)
        rw [List.append_nil] at hrt
        rw [hrt]
      · subst hvns
        have hmn : marshalValue (.vNumber ns) = ns := by rw [marshalValue]
        rw [parserParse, hmn]
        cases ns with
        | nil => exact absurd rfl hne
        | cons c0 ns1 =>
          have hc0 : isNumChar c0 = true := by
            have := List.all_eq_true.mp hall c0 (by simp)
            simpa using this
          have hf := isNumChar_facts hc0
          have hsw : skipWS (c0 :: ns1) = c0 :: ns1 :=
            skipWS_not_ws hf.2.2.2.2.2.2.1 ns1
          rw [hsw]
          obtain ⟨f2, hf2⟩ : ∃ f2, parseFuel (c0 :: ns1) = f2 + 1 :=
            ⟨3 * (c0 :: ns1).length + 3, by rw [parseFuel]⟩
          rw [hf2, parseRun]
          rw [if_neg (show ¬ (0 : Nat) + 1 > maxDepth from by
              simp only [maxDepth]; omega),
            if_neg hf.1, if_neg hf.2.1, if_neg hf.2.2.1, if_neg hf.2.2.2.1,
            if_neg hf.2.2.2.2.1, if_neg hf.2.2.2.2.2.1]
          have hdrop : (c0 :: ns1).dropWhile isNumChar = [] :=
            List.dropWhile_eq_nil_iff.mpr (fun x hx => by
              simpa using List.all_eq_true.mp hall x hx)
          rw [parseRawNumber, hdrop]

theorem c2_marshal_roundtrip_witness :
    parserParse c2Input = .ok c2Value ∧
    parserParse (marshalValue c2Value) = .ok c2Value :=
  ⟨rfl, c2_marshal_roundtrip c2Input c2Value rfl⟩

end Jsonpart
